import Mathlib

/-!
Verification of the ulordsuite Block/Transaction Synchronization Manager
specification against a shallow embedding of the code.

The netsync package's `PeerNotifier` interface and `Config` struct are embedded
directly from the source. The Sync Manager's event-processing core
(netsync/manager.go) is not part of the provided sources — only its
configuration declarations are — so the state machine below is modelled from
the specification's data model (§3), public contract (§4.1), scheduler policy
(§4.2), orphan handling (§4.3) and error taxonomy (§7).
-/

set_option linter.unusedVariables false

namespace UlordSync

/- Peer identifiers, block/transaction hashes and timestamps are embedded as
naturals: their concrete representations (peer identity, chainhash digests,
wall-clock times) belong to packages missing from the provided sources. -/

/-- Modelled from the spec (§3, PeerState): per-connection state of the Sync
Manager, missing from the provided sources (netsync/manager.go). -/
structure PeerState where
  peerID : Nat
  protocolHeight : Nat
  isSyncCandidate : Bool
  requestedBlocks : List Nat
  requestedTxs : List Nat
  lastBlockAnnounced : Nat
  lastAnnouncedTime : Nat
  stallScore : Nat
  connectedAt : Nat
  lastActivity : Nat
deriving Repr, DecidableEq

/-- Modelled from the spec (§3, SyncState): process-wide sync record of the
missing netsync/manager.go. -/
structure SyncState where
  currentSyncPeer : Option Nat
  bestKnownHash : Nat
  bestKnownHeight : Nat
  headersFirstMode : Bool
  nextCheckpoint : Option (Nat × Nat)
deriving Repr, DecidableEq

/-- Modelled from the spec (§3, OrphanBlock): a block received before its
parent, keyed by parent hash. -/
structure OrphanBlock where
  blockHash : Nat
  parentHash : Nat
  receivedAt : Nat
deriving Repr, DecidableEq

/-- Modelled from the spec (§2): the state owned by the serializer loop:
PeerState table, SyncState, Orphan Pool, the header queue awaiting block
requests, released requests pending reassignment, and the first-seen
transaction request queue. -/
structure ManagerState where
  peers : List PeerState
  sync : SyncState
  orphans : List OrphanBlock
  headerQueue : List (Nat × Nat)
  pendingBlocks : List Nat
  pendingTxs : List Nat
  txQueue : List Nat
  now : Nat
deriving Repr, DecidableEq

/-- Modelled from the spec (§9 open question): tunable configuration; the
observed source does not show the exact constants. -/
structure SyncConfig where
  stallTimeout : Nat
  stallPenalty : Nat
  disconnectThreshold : Nat
  demoteThreshold : Nat
  maxOrphans : Nat
  inFlightCap : Nat
  txWindow : Nat
  headerBatchSize : Nat
deriving Repr, DecidableEq

/-- Modelled from the spec (§4.1): the signalled, non-fatal error conditions. -/
inductive SyncError where
  | errOrphanPoolFull
  | errDuplicateRequest
  | errUnknownPeer
  | errInvalidHeaderChain
  | errNoSyncCandidate
deriving Repr, DecidableEq

/-- Modelled from the spec (§4.1, §7): outbound effects of one serializer
step. `fatal` models terminating the process; it is in the vocabulary so that
"no operation terminates the process" is a provable statement — no handler
ever emits it. -/
inductive Output where
  | requestBlocks (pid : Nat) (hs : List Nat)
  | requestTxs (pid : Nat) (hs : List Nat)
  | requestHeaders (pid : Nat)
  | relayInv (h : Nat) (excluding : Nat)
  | disconnectPeer (pid : Nat)
  | reportError (e : SyncError)
  | fatal
deriving Repr, DecidableEq

/-- Modelled from the spec (§6 Chain Validator): the collaborator's verdict on
a submitted block, carried inside the event since the validator is external. -/
inductive BlockDisposition where
  | orphaned
  | accepted (isNewTip : Bool) (tipHash : Nat) (tipHeight : Nat)
  | rejected
deriving Repr, DecidableEq

/-- Modelled from the spec (§4.1): the typed events drained by the serializer
loop. Collaborator verdicts (Chain Validator, Transaction Pool) are embedded
as event payload, adversarially arbitrary. `promoteVerdict` gives the Chain
Validator's accept/reject answer for each orphan promoted after an accept. -/
inductive Event where
  | peerConnected (pid : Nat) (height : Nat) (candidate : Bool)
  | peerDisconnected (pid : Nat)
  | headersReceived (pid : Nat) (headers : List (Nat × Nat))
  | blockReceived (pid : Nat) (h parent : Nat) (disp : BlockDisposition)
      (promoteVerdict : Nat → Bool)
  | txReceived (pid : Nat) (tx : Nat) (accepted : Bool)
  | invReceived (pid : Nat) (invBlocks invTxs : List Nat)
  | tick (tnow : Nat)

/-- Replace the first peer whose identifier matches `pid` by `f` of it. -/
def updateFirst (ps : List PeerState) (pid : Nat) (f : PeerState → PeerState) :
    List PeerState :=
  match ps with
  | [] => []
  | p :: rest => if p.peerID = pid then f p :: rest else p :: updateFirst rest pid f

/-- Whether peer `p` currently has block hash `h` in flight. -/
def holdsBlock (h : Nat) (p : PeerState) : Bool :=
  p.requestedBlocks.contains h

/-- Whether peer `p` currently has transaction hash `h` in flight. -/
def holdsTx (h : Nat) (p : PeerState) : Bool :=
  p.requestedTxs.contains h

/-- Whether any peer has block hash `h` in flight. -/
def inFlightBlock (ps : List PeerState) (h : Nat) : Bool :=
  ps.any (holdsBlock h)

/-- Whether any peer has transaction hash `h` in flight. -/
def inFlightTx (ps : List PeerState) (h : Nat) : Bool :=
  ps.any (holdsTx h)

/-- Number of peers holding block hash `h` in their requested set. -/
def blockCount (ps : List PeerState) (h : Nat) : Nat :=
  ps.countP (holdsBlock h)

/-- Number of peers holding transaction hash `h` in their requested set. -/
def txCount (ps : List PeerState) (h : Nat) : Nat :=
  ps.countP (holdsTx h)

/-- Whether a peer with identifier `pid` is registered. -/
def knownPeer (ps : List PeerState) (pid : Nat) : Bool :=
  ps.any (fun p => p.peerID == pid)

/-- Modelled from the spec (§4.2): assign block requests to `pid`, filtering
out hashes already in flight at any peer (no duplicate fan-out). Returns the
updated table and the hashes actually assigned. -/
def requestBlocksFrom (ps : List PeerState) (pid : Nat) (hs : List Nat)
    (t : Nat) : List PeerState × List Nat :=
  let fresh := hs.filter (fun h => !(inFlightBlock ps h))
  (updateFirst ps pid (fun p =>
      { p with requestedBlocks := p.requestedBlocks ++ fresh, lastActivity := t }),
   fresh)

/-- Modelled from the spec (§4.2): assign transaction requests to `pid`,
filtering out hashes already in flight at any peer. -/
def requestTxsFrom (ps : List PeerState) (pid : Nat) (hs : List Nat)
    (t : Nat) : List PeerState × List Nat :=
  let fresh := hs.filter (fun h => !(inFlightTx ps h))
  (updateFirst ps pid (fun p =>
      { p with requestedTxs := p.requestedTxs ++ fresh, lastActivity := t }),
   fresh)

/-- Sync-peer selection order (§4.1 PeerDisconnected): highest advertised
height wins, ties broken by earliest connection. -/
def betterCandidate (p q : PeerState) : Bool :=
  (q.protocolHeight < p.protocolHeight) ||
    ((q.protocolHeight == p.protocolHeight) && (p.connectedAt < q.connectedAt))

/-- One step of sync-peer selection: prefer `p` over the best of the rest
when `p` is a candidate that compares better. -/
def chooseBetter (p : PeerState) : Option PeerState → Option PeerState
  | none => if p.isSyncCandidate then some p else none
  | some q => if p.isSyncCandidate && betterCandidate p q then some p else some q

/-- Modelled from the spec (§4.1 PeerDisconnected): choose a sync peer from
the candidates by highest height with earliest-connection tiebreak. -/
def bestCandidate : List PeerState → Option PeerState
  | [] => none
  | p :: rest => chooseBetter p (bestCandidate rest)

/-- Contiguity check for a received header batch (§4.1 HeadersReceived): each
header's height is one more than its predecessor's, starting at `n + 1`. -/
def contFrom (n : Nat) : List (Nat × Nat) → Bool
  | [] => true
  | hp :: rest => (hp.2 == n + 1) && contFrom hp.2 rest

/-- Strictly-ascending-by-one heights along a header list: the shape the
Request Scheduler's block batches must have (§4.2). -/
def chainHeights : List (Nat × Nat) → Bool
  | [] => true
  | [_] => true
  | a :: b :: rest => (b.2 == a.2 + 1) && chainHeights (b :: rest)

/-- Height of the last header in a list, with default `d` when empty. -/
def lastHeight (d : Nat) : List (Nat × Nat) → Nat
  | [] => d
  | [hp] => hp.2
  | _ :: b :: rest => lastHeight d (b :: rest)

/-- Outstanding block-request load of the peer with identifier `pid`. -/
def peerLoad (ps : List PeerState) (pid : Nat) : Nat :=
  match ps.find? (fun p => p.peerID == pid) with
  | some p => p.requestedBlocks.length
  | none => 0

/-- Modelled from the spec (§4.2): the Request Scheduler's next block batch
for peer `pid`: the front of the header queue, bounded by that peer's spare
in-flight capacity. -/
def scheduleBlocksFor (cfg : SyncConfig) (s : ManagerState) (pid : Nat) :
    List (Nat × Nat) :=
  s.headerQueue.take (cfg.inFlightCap - peerLoad s.peers pid)

/-- Modelled from the spec (§4.2): the scheduler's block batch for the current
sync peer. -/
def scheduleBlockBatch (cfg : SyncConfig) (s : ManagerState) : List (Nat × Nat) :=
  match s.sync.currentSyncPeer with
  | some pid => scheduleBlocksFor cfg s pid
  | none => []

/-- Modelled from the spec (§4.2): the scheduler's next transaction batch:
first-seen-first-served from the front of the pending queue. -/
def scheduleTxBatch (cfg : SyncConfig) (s : ManagerState) : List Nat :=
  s.txQueue.take cfg.txWindow

/-- Add the configured stall penalty to peer `pid`'s stallScore. -/
def penalize (cfg : SyncConfig) (ps : List PeerState) (pid : Nat) :
    List PeerState :=
  updateFirst ps pid (fun p => { p with stallScore := p.stallScore + cfg.stallPenalty })

/-- Whether peer `pid`'s stallScore has reached the disconnect threshold. -/
def overThreshold (cfg : SyncConfig) (ps : List PeerState) (pid : Nat) : Bool :=
  ps.any (fun p => p.peerID == pid && cfg.disconnectThreshold ≤ p.stallScore)

/-- Modelled from the spec (§4.3): iterative orphan promotion. After a block
is accepted, all orphans keyed by its hash as parent are submitted to the
Chain Validator (`pv`) and removed from the pool; accepted ones are queued so
their own children are promoted in turn. Fuelled by pool size: a loop, not
unbounded recursion. -/
def promoteLoop (pv : Nat → Bool) : Nat → List OrphanBlock → List Nat →
    List OrphanBlock
  | 0, pool, _ => pool
  | _ + 1, pool, [] => pool
  | fuel + 1, pool, h :: rest =>
    let kids := pool.filter (fun o => o.parentHash == h)
    let pool1 := pool.filter (fun o => !(o.parentHash == h))
    let acceptedKids := (kids.filter (fun o => pv o.blockHash)).map OrphanBlock.blockHash
    promoteLoop pv fuel pool1 (rest ++ acceptedKids)

/-- Stall predicate (§4.1 Tick, glossary): outstanding requests unanswered
beyond the stall timeout at time `tnow`. -/
def stalledB (cfg : SyncConfig) (tnow : Nat) (p : PeerState) : Bool :=
  (!p.requestedBlocks.isEmpty || !p.requestedTxs.isEmpty) &&
    decide (p.lastActivity + cfg.stallTimeout < tnow)

/-- Eligibility for receiving reassigned requests (§8 stall reassignment): a
sync candidate that is not itself stalled. -/
def eligibleB (cfg : SyncConfig) (tnow : Nat) (p : PeerState) : Bool :=
  p.isSyncCandidate && !(stalledB cfg tnow p)

/-- Modelled from the spec (§4.1 PeerConnected): register a PeerState; if no
sync peer is active and this peer is a valid candidate with height at least
the local best, select it and request headers. -/
def processPeerConnected (cfg : SyncConfig) (s : ManagerState) (pid : Nat)
    (height : Nat) (candidate : Bool) : ManagerState × List Output :=
  if knownPeer s.peers pid then (s, [])
  else
    let p : PeerState :=
      { peerID := pid, protocolHeight := height, isSyncCandidate := candidate,
        requestedBlocks := [], requestedTxs := [], lastBlockAnnounced := 0,
        lastAnnouncedTime := s.now, stallScore := 0, connectedAt := s.now,
        lastActivity := s.now }
    match s.sync.currentSyncPeer with
    | some _ => ({ s with peers := p :: s.peers }, [])
    | none =>
      if candidate && decide (s.sync.bestKnownHeight ≤ height) then
        ({ s with peers := p :: s.peers,
                  sync := { s.sync with currentSyncPeer := some pid } },
         [Output.requestHeaders pid])
      else ({ s with peers := p :: s.peers }, [])

/-- Modelled from the spec (§4.1 PeerDisconnected): remove the PeerState,
release its in-flight requests for reassignment, and if it was the sync peer
select a replacement from the remaining candidates. -/
def processPeerDisconnected (cfg : SyncConfig) (s : ManagerState) (pid : Nat) :
    ManagerState × List Output :=
  if !(knownPeer s.peers pid) then (s, [Output.reportError SyncError.errUnknownPeer])
  else
    let gone := s.peers.filter (fun p => p.peerID == pid)
    let releasedB := gone.foldr (fun p acc => p.requestedBlocks ++ acc) []
    let releasedT := gone.foldr (fun p acc => p.requestedTxs ++ acc) []
    let remaining := s.peers.filter (fun p => !(p.peerID == pid))
    let s1 := { s with peers := remaining,
                       pendingBlocks := s.pendingBlocks ++ releasedB,
                       pendingTxs := s.pendingTxs ++ releasedT }
    if s.sync.currentSyncPeer == some pid then
      match bestCandidate remaining with
      | some q =>
        ({ s1 with sync := { s1.sync with currentSyncPeer := some q.peerID } },
         [Output.requestHeaders q.peerID])
      | none =>
        ({ s1 with sync := { s1.sync with currentSyncPeer := none } },
         [Output.reportError SyncError.errNoSyncCandidate])
    else (s1, [])

/-- Modelled from the spec (§4.1 HeadersReceived, §4.2): validate contiguity
against the best known header, flag duplicates, advance the best known header,
queue the new headers and schedule block requests for the sender up to its
in-flight capacity. In headers-first mode only the sync peer's headers are
trusted; a batch shorter than the configured size completes headers-first
sync. -/
def processHeadersReceived (cfg : SyncConfig) (s : ManagerState) (pid : Nat)
    (hs : List (Nat × Nat)) : ManagerState × List Output :=
  if !(knownPeer s.peers pid) then (s, [Output.reportError SyncError.errUnknownPeer])
  else if s.sync.headersFirstMode && !(s.sync.currentSyncPeer == some pid) then
    (s, [])
  else if hs.isEmpty then
    ({ s with sync := { s.sync with headersFirstMode := false } }, [])
  else if !(contFrom s.sync.bestKnownHeight hs) then
    let peers1 := penalize cfg s.peers pid
    ({ s with peers := peers1 },
     if overThreshold cfg peers1 pid then
       [Output.reportError SyncError.errInvalidHeaderChain, Output.disconnectPeer pid]
     else [Output.reportError SyncError.errInvalidHeaderChain])
  else if hs.any (fun hp => inFlightBlock s.peers hp.1 || s.headerQueue.any (fun qp => qp.1 == hp.1)) then
    (s, [Output.reportError SyncError.errDuplicateRequest])
  else
    let queue1 := s.headerQueue ++ hs
    let best1 := lastHeight s.sync.bestKnownHeight hs
    let bestHash1 :=
      match hs.getLast? with
      | some hp => hp.1
      | none => s.sync.bestKnownHash
    let hfm := s.sync.headersFirstMode && decide (cfg.headerBatchSize ≤ hs.length)
    let sync1 : SyncState :=
      { s.sync with bestKnownHeight := best1, bestKnownHash := bestHash1, headersFirstMode := hfm }
    let s1 := { s with headerQueue := queue1, sync := sync1 }
    let batch := scheduleBlocksFor cfg s1 pid
    let assigned := requestBlocksFrom s1.peers pid (batch.map Prod.fst) s.now
    ({ s1 with peers := assigned.1, headerQueue := s1.headerQueue.drop batch.length },
     [Output.requestBlocks pid assigned.2])

/-- Modelled from the spec (§4.1 BlockReceived, §4.3): clear the in-flight
entry; orphan the block (evicting the oldest orphan when the pool is full) and
request its missing ancestor when the parent is unknown; on acceptance promote
orphans iteratively and update the best known header on a new tip; on
rejection penalize the sender and disconnect it above the threshold. -/
def processBlockReceived (cfg : SyncConfig) (s : ManagerState) (pid : Nat)
    (h parent : Nat) (disp : BlockDisposition) (pv : Nat → Bool) :
    ManagerState × List Output :=
  if !(knownPeer s.peers pid) then (s, [Output.reportError SyncError.errUnknownPeer])
  else
    let peers1 := updateFirst s.peers pid (fun p =>
      { p with requestedBlocks := p.requestedBlocks.filter (fun x => !(x == h)),
               lastActivity := s.now })
    match disp with
    | BlockDisposition.orphaned =>
      let full := decide (cfg.maxOrphans ≤ s.orphans.length)
      let pool1 := if full then s.orphans.drop 1 else s.orphans
      let pool2 := pool1 ++ [{ blockHash := h, parentHash := parent, receivedAt := s.now }]
      let assigned := requestBlocksFrom peers1 pid [parent] s.now
      ({ s with peers := assigned.1, orphans := pool2 },
       (if full then [Output.reportError SyncError.errOrphanPoolFull] else []) ++
         [Output.requestBlocks pid assigned.2])
    | BlockDisposition.rejected =>
      let peers2 := penalize cfg peers1 pid
      ({ s with peers := peers2 },
       if overThreshold cfg peers2 pid then [Output.disconnectPeer pid] else [])
    | BlockDisposition.accepted isNewTip tipHash tipHeight =>
      let pool1 := promoteLoop pv s.orphans.length s.orphans [h]
      if isNewTip then
        ({ s with peers := peers1, orphans := pool1, headerQueue := [],
                  sync := { s.sync with bestKnownHash := tipHash, bestKnownHeight := tipHeight } },
         [])
      else ({ s with peers := peers1, orphans := pool1 }, [])

/-- Modelled from the spec (§4.1 TransactionReceived): clear the in-flight
entry; on Transaction Pool acceptance relay an inventory announcement to the
other peers. -/
def processTxReceived (cfg : SyncConfig) (s : ManagerState) (pid : Nat)
    (tx : Nat) (accepted : Bool) : ManagerState × List Output :=
  if !(knownPeer s.peers pid) then (s, [Output.reportError SyncError.errUnknownPeer])
  else
    let peers1 := updateFirst s.peers pid (fun p =>
      { p with requestedTxs := p.requestedTxs.filter (fun x => !(x == tx)),
               lastActivity := s.now })
    ({ s with peers := peers1 },
     if accepted then [Output.relayInv tx pid] else [])

/-- Modelled from the spec (§4.1 InventoryReceived, §4.2): request advertised
block hashes not already in flight, within the per-peer window; enqueue fresh
transaction hashes first-seen and serve the front of the queue to the
announcing peer within the transaction window. -/
def processInvReceived (cfg : SyncConfig) (s : ManagerState) (pid : Nat)
    (invBlocks invTxs : List Nat) : ManagerState × List Output :=
  if !(knownPeer s.peers pid) then (s, [Output.reportError SyncError.errUnknownPeer])
  else
    let freshB := (invBlocks.filter (fun h => !(inFlightBlock s.peers h))).take
      (cfg.inFlightCap - peerLoad s.peers pid)
    let assignedB := requestBlocksFrom s.peers pid freshB s.now
    let freshT := invTxs.filter (fun h =>
      !(inFlightTx s.peers h) && !(s.txQueue.contains h))
    let txQueue1 := s.txQueue ++ freshT
    let batchT := txQueue1.take cfg.txWindow
    let assignedT := requestTxsFrom assignedB.1 pid batchT s.now
    ({ s with peers := assignedT.1, txQueue := txQueue1.drop batchT.length },
     [Output.requestBlocks pid assignedB.2, Output.requestTxs pid assignedT.2])

/-- Stall handling for a single peer at Tick time (§4.1 Tick): a stalled
peer's requests are released and its stallScore penalized. -/
def stallClear (cfg : SyncConfig) (tnow : Nat) (p : PeerState) : PeerState :=
  if stalledB cfg tnow p then
    { p with requestedBlocks := [], requestedTxs := [],
             stallScore := p.stallScore + cfg.stallPenalty, lastActivity := tnow }
  else p

/-- Sync-peer demotion at Tick (§4.1 Tick): a repeatedly stalled sync peer is
demoted and a replacement is chosen among the other candidates. -/
def tickSync (cfg : SyncConfig) (s : ManagerState) (tnow : Nat)
    (peers1 : List PeerState) : SyncState :=
  match s.sync.currentSyncPeer with
  | some pid =>
    match s.peers.find? (fun p => p.peerID == pid) with
    | some p =>
      if stalledB cfg tnow p &&
          decide (cfg.demoteThreshold ≤ p.stallScore + cfg.stallPenalty) then
        match bestCandidate (peers1.filter (fun q => !(q.peerID == pid))) with
        | some q => { s.sync with currentSyncPeer := some q.peerID }
        | none => { s.sync with currentSyncPeer := none }
      else s.sync
    | none => s.sync
  | none => s.sync

/-- Requests released by the stalled peers at Tick time. -/
def releasedBlocks (cfg : SyncConfig) (s : ManagerState) (tnow : Nat) : List Nat :=
  (s.peers.filter (stalledB cfg tnow)).foldr (fun p acc => p.requestedBlocks ++ acc) []

/-- Transaction requests released by the stalled peers at Tick time. -/
def releasedTxs (cfg : SyncConfig) (s : ManagerState) (tnow : Nat) : List Nat :=
  (s.peers.filter (stalledB cfg tnow)).foldr (fun p acc => p.requestedTxs ++ acc) []

/-- Modelled from the spec (§4.1 Tick, §5, §8): detect stalled peers, penalize
their stallScore and release their requests; demote a repeatedly stalled sync
peer; then run a scheduling pass reassigning pending requests to the first
eligible peer. -/
def processTick (cfg : SyncConfig) (s : ManagerState) (tnow : Nat) :
    ManagerState × List Output :=
  let peers1 := s.peers.map (stallClear cfg tnow)
  let sync1 := tickSync cfg s tnow peers1
  let pendB := s.pendingBlocks ++ releasedBlocks cfg s tnow
  let pendT := s.pendingTxs ++ releasedTxs cfg s tnow
  match s.peers.filter (eligibleB cfg tnow) with
  | [] =>
    ({ s with peers := peers1, sync := sync1, pendingBlocks := pendB,
              pendingTxs := pendT, now := tnow }, [])
  | q :: _ =>
    let assignedB := requestBlocksFrom peers1 q.peerID pendB tnow
    let assignedT := requestTxsFrom assignedB.1 q.peerID pendT tnow
    ({ s with peers := assignedT.1, sync := sync1, pendingBlocks := [],
              pendingTxs := [], now := tnow },
     [Output.requestBlocks q.peerID assignedB.2,
      Output.requestTxs q.peerID assignedT.2])

/-- Modelled from the spec (§2, §5): the serializer loop's single transition:
one event processed against the state owned by the Sync Manager. -/
def process (cfg : SyncConfig) (s : ManagerState) : Event → ManagerState × List Output
  | Event.peerConnected pid height candidate =>
    processPeerConnected cfg s pid height candidate
  | Event.peerDisconnected pid => processPeerDisconnected cfg s pid
  | Event.headersReceived pid hs => processHeadersReceived cfg s pid hs
  | Event.blockReceived pid h parent disp pv =>
    processBlockReceived cfg s pid h parent disp pv
  | Event.txReceived pid tx accepted => processTxReceived cfg s pid tx accepted
  | Event.invReceived pid invB invT => processInvReceived cfg s pid invB invT
  | Event.tick tnow => processTick cfg s tnow

/-- The Sync Manager's initial state: no peers, genesis best header, headers
first mode on. -/
def initState : ManagerState :=
  { peers := [],
    sync := { currentSyncPeer := none, bestKnownHash := 0, bestKnownHeight := 0, headersFirstMode := true, nextCheckpoint := none },
    orphans := [], headerQueue := [], pendingBlocks := [], pendingTxs := [],
    txQueue := [], now := 0 }

/-- States reachable by the serializer loop from the initial state. -/
inductive Reachable (cfg : SyncConfig) : ManagerState → Prop
  | init : Reachable cfg initState
  | step (s : ManagerState) (ev : Event) : Reachable cfg s →
      Reachable cfg (process cfg s ev).1

/-- Conservative default configuration from the spec's §9 open question. -/
def defaultConfig : SyncConfig :=
  { stallTimeout := 30, stallPenalty := 25, disconnectThreshold := 200,
    demoteThreshold := 100, maxOrphans := 100, inFlightCap := 16,
    txWindow := 16, headerBatchSize := 2000 }

/-- Decidable pairwise disjointness of two peers' requested-block sets. -/
def disjBlocksB (p q : PeerState) : Bool :=
  p.requestedBlocks.all (fun h => !(q.requestedBlocks.contains h))

/-- Decidable pairwise disjointness of two peers' requested-transaction sets. -/
def disjTxsB (p q : PeerState) : Bool :=
  p.requestedTxs.all (fun h => !(q.requestedTxs.contains h))

/-- Decidable no-duplicate-fan-out check across a peer table (blocks). -/
def pairwiseDisjBlocksB : List PeerState → Bool
  | [] => true
  | p :: rest => rest.all (disjBlocksB p) && pairwiseDisjBlocksB rest

/-- Decidable no-duplicate-fan-out check across a peer table (transactions). -/
def pairwiseDisjTxsB : List PeerState → Bool
  | [] => true
  | p :: rest => rest.all (disjTxsB p) && pairwiseDisjTxsB rest

end UlordSync

namespace netsync

/-- Embedded from src/ulord/integration/rpctest/btcd.go (netsync fragment,
lines 93–101): the `PeerNotifier` interface with its four methods. The
collaborator types it mentions (mempool.TxDesc, chainhash.Nat, peer.Peer,
wire.InvVect, the untyped relay payload, ulordutil.Tx) belong to excluded
packages and are abstracted as type parameters, as is the effect type `Eff`
of the notification methods; `int32` heights are embedded as `Int`. -/
structure PeerNotifier (TxDesc ChainHash Peer InvVect InvData Tx Eff : Type) where
  AnnounceNewTransactions : List TxDesc → Eff
  UpdatePeerHeights : ChainHash → Int → Peer → Eff
  RelayInventory : InvVect → InvData → Eff
  TransactionConfirmed : Tx → Eff

/-- Embedded from src/ulord/integration/rpctest/btcd.go (netsync fragment,
lines 103–114): the `Config` struct used to initialize a new SyncManager,
with its exact seven fields; external collaborator types (BlockChain, TxPool,
ChainParams, FeeEstimator) are abstracted as type parameters. -/
structure Config (TxDesc ChainHash Peer InvVect InvData Tx Eff BlockChain TxPool ChainParams FeeEstimator : Type) where
  peerNotifier : PeerNotifier TxDesc ChainHash Peer InvVect InvData Tx Eff
  Chain : BlockChain
  TxMemPool : TxPool
  ChainParams : ChainParams
  DisableCheckpoints : Bool
  MaxPeers : Int
  FeeEstimator : FeeEstimator

end netsync

namespace ulordjson

/-- Embedded from the ulordjson package: `ErrorCode` is an integer-typed
identifier for registration/usage errors; only its stringer behaviour is
pinned by the sources (the TestErrorCodeStringer table in
src/unnamed/part_000). -/
abbrev ErrorCode := Int

/-- First defined error code (value 0). -/
def ErrDuplicateMethod : Int := 0

/-- Error code value 1. -/
def ErrInvalidUsageFlags : Int := 1

/-- Error code value 2. -/
def ErrInvalidType : Int := 2

/-- Error code value 3. -/
def ErrEmbeddedType : Int := 3

/-- Error code value 4. -/
def ErrUnexportedField : Int := 4

/-- Error code value 5. -/
def ErrUnsupportedFieldType : Int := 5

/-- Error code value 6. -/
def ErrNonOptionalField : Int := 6

/-- Error code value 7. -/
def ErrNonOptionalDefault : Int := 7

/-- Error code value 8. -/
def ErrMismatchedDefault : Int := 8

/-- Error code value 9. -/
def ErrUnregisteredMethod : Int := 9

/-- Error code value 10. -/
def ErrNumParams : Int := 10

/-- Error code value 11, the last defined code. -/
def ErrMissingDescription : Int := 11

/-- Number of defined error codes, as exported to the test via
TstNumErrorCodes. -/
def numErrorCodes : Int := 12

/-- Modelled from the spec: the ulordjson `errorCodeStrings` table backing
`ErrorCode.String()`; the implementation file is missing from src/ — only its
test (src/unnamed/part_000, TestErrorCodeStringer) is present, which pins each
defined code to its identifier name. -/
def errorCodeStrings (e : Int) : Option String :=
  if e = ErrDuplicateMethod then some "ErrDuplicateMethod"
  else if e = ErrInvalidUsageFlags then some "ErrInvalidUsageFlags"
  else if e = ErrInvalidType then some "ErrInvalidType"
  else if e = ErrEmbeddedType then some "ErrEmbeddedType"
  else if e = ErrUnexportedField then some "ErrUnexportedField"
  else if e = ErrUnsupportedFieldType then some "ErrUnsupportedFieldType"
  else if e = ErrNonOptionalField then some "ErrNonOptionalField"
  else if e = ErrNonOptionalDefault then some "ErrNonOptionalDefault"
  else if e = ErrMismatchedDefault then some "ErrMismatchedDefault"
  else if e = ErrUnregisteredMethod then some "ErrUnregisteredMethod"
  else if e = ErrNumParams then some "ErrNumParams"
  else if e = ErrMissingDescription then some "ErrMissingDescription"
  else none

/-- Modelled from the spec: the `ErrorCode.String()` method, missing from
src/ and pinned by its test: the identifier name for defined codes, otherwise
the formatted unknown-code string. -/
def ErrorCodeString (e : Int) : String :=
  match errorCodeStrings e with
  | some s => s
  | none => "Unknown ErrorCode (" ++ toString e ++ ")"

/-- Modelled from the spec (§9 design note on optional fields): a JSON-RPC
parameter value as appearing in a marshalled command's positional `params`. -/
inductive JParam where
  | pstr (s : String)
  | pint (n : Int)
  | pbool (b : Bool)
  | parr (xs : List String)
deriving Repr, DecidableEq

/-- Modelled from the spec: a marshalled JSON-RPC request (the ulordjson
`Request` struct observed in the tests: jsonrpc version, method, positional
params, id). -/
structure Request where
  jsonrpc : String
  method : String
  params : List JParam
  id : Int
deriving Repr, DecidableEq

/-- Modelled from the spec: the command layer is missing from src/ — only its
marshal/unmarshal tests are present. A representative universe of supported
commands covering the claim's cited cases: required parameters, optional
parameters with documented defaults (getbalance minconf, importprivkey
rescan, notifynewtransactions verbose, exportwatchingwallet download) and
optional parameters without defaults (account/label fields). -/
inductive Cmd where
  | getBalanceCmd (account : Option String) (minConf : Option Int)
  | importPrivKeyCmd (privKey : String) (label : Option String) (rescan : Option Bool)
  | notifyNewTransactionsCmd (verbose : Option Bool)
  | exportWatchingWalletCmd (account : Option String) (download : Option Bool)
  | getNewAddressCmd (account : Option String)
  | walletIsLockedCmd
  | recoverAddressesCmd (account : String) (n : Int)
deriving Repr, DecidableEq

/-- Marshal a run of trailing optional parameters: emitted in order up to the
first absent one, after which the rest are omitted (as the observed
marshalled test vectors show: params lists are always prefixes). -/
def optRun : List (Option JParam) → List JParam
  | [] => []
  | none :: _ => []
  | some x :: rest => x :: optRun rest

/-- Modelled from the spec: `MarshalCmd`, missing from src/ — only its tests
are present. Produces the positional JSON-RPC request for a command, omitting
trailing absent optional parameters. -/
def MarshalCmd (id : Int) : Cmd → Request
  | Cmd.getBalanceCmd a m =>
    ⟨"1.0", "getbalance", optRun [a.map JParam.pstr, m.map JParam.pint], id⟩
  | Cmd.importPrivKeyCmd k l r =>
    ⟨"1.0", "importprivkey",
      JParam.pstr k :: optRun [l.map JParam.pstr, r.map JParam.pbool], id⟩
  | Cmd.notifyNewTransactionsCmd v =>
    ⟨"1.0", "notifynewtransactions", optRun [v.map JParam.pbool], id⟩
  | Cmd.exportWatchingWalletCmd a d =>
    ⟨"1.0", "exportwatchingwallet",
      optRun [a.map JParam.pstr, d.map JParam.pbool], id⟩
  | Cmd.getNewAddressCmd a =>
    ⟨"1.0", "getnewaddress", optRun [a.map JParam.pstr], id⟩
  | Cmd.walletIsLockedCmd => ⟨"1.0", "walletislocked", [], id⟩
  | Cmd.recoverAddressesCmd a n =>
    ⟨"1.0", "recoveraddresses", [JParam.pstr a, JParam.pint n], id⟩

/-- Modelled from the spec: `UnmarshalCmd`, missing from src/ — only its tests
are present. Parses a request back into a command, filling documented
defaults for omitted optional parameters (getbalance minconf 1, importprivkey
rescan true, notifynewtransactions verbose false, exportwatchingwallet
download false) and leaving default-less optionals absent. -/
def UnmarshalCmd (r : Request) : Except ErrorCode Cmd :=
  match r.method, r.params with
  | "getbalance", [] => Except.ok (Cmd.getBalanceCmd none (some 1))
  | "getbalance", [JParam.pstr a] => Except.ok (Cmd.getBalanceCmd (some a) (some 1))
  | "getbalance", [JParam.pstr a, JParam.pint m] =>
    Except.ok (Cmd.getBalanceCmd (some a) (some m))
  | "importprivkey", [JParam.pstr k] =>
    Except.ok (Cmd.importPrivKeyCmd k none (some true))
  | "importprivkey", [JParam.pstr k, JParam.pstr l] =>
    Except.ok (Cmd.importPrivKeyCmd k (some l) (some true))
  | "importprivkey", [JParam.pstr k, JParam.pstr l, JParam.pbool rs] =>
    Except.ok (Cmd.importPrivKeyCmd k (some l) (some rs))
  | "notifynewtransactions", [] =>
    Except.ok (Cmd.notifyNewTransactionsCmd (some false))
  | "notifynewtransactions", [JParam.pbool v] =>
    Except.ok (Cmd.notifyNewTransactionsCmd (some v))
  | "exportwatchingwallet", [] =>
    Except.ok (Cmd.exportWatchingWalletCmd none (some false))
  | "exportwatchingwallet", [JParam.pstr a] =>
    Except.ok (Cmd.exportWatchingWalletCmd (some a) (some false))
  | "exportwatchingwallet", [JParam.pstr a, JParam.pbool d] =>
    Except.ok (Cmd.exportWatchingWalletCmd (some a) (some d))
  | "getnewaddress", [] => Except.ok (Cmd.getNewAddressCmd none)
  | "getnewaddress", [JParam.pstr a] => Except.ok (Cmd.getNewAddressCmd (some a))
  | "walletislocked", [] => Except.ok Cmd.walletIsLockedCmd
  | "recoveraddresses", [JParam.pstr a, JParam.pint n] =>
    Except.ok (Cmd.recoverAddressesCmd a n)
  | "getbalance", _ => Except.error ErrNumParams
  | "importprivkey", _ => Except.error ErrNumParams
  | "notifynewtransactions", _ => Except.error ErrNumParams
  | "exportwatchingwallet", _ => Except.error ErrNumParams
  | "getnewaddress", _ => Except.error ErrNumParams
  | "walletislocked", _ => Except.error ErrNumParams
  | "recoveraddresses", _ => Except.error ErrNumParams
  | _, _ => Except.error ErrUnregisteredMethod

/-- A command as constructible through the documented constructors: no
optional parameter is present while an earlier optional of the same command
is absent (every test vector has this prefix shape). -/
def cmdWellFormed : Cmd → Bool
  | Cmd.getBalanceCmd a m => m.isNone || a.isSome
  | Cmd.importPrivKeyCmd _ l r => r.isNone || l.isSome
  | Cmd.exportWatchingWalletCmd a d => d.isNone || a.isSome
  | _ => true

/-- The documented default-fill policy applied to a command: optional
parameters with defaults become present with their default when absent;
optionals without defaults are untouched. -/
def fillDefaults : Cmd → Cmd
  | Cmd.getBalanceCmd a m => Cmd.getBalanceCmd a (some (m.getD 1))
  | Cmd.importPrivKeyCmd k l r => Cmd.importPrivKeyCmd k l (some (r.getD true))
  | Cmd.notifyNewTransactionsCmd v => Cmd.notifyNewTransactionsCmd (some (v.getD false))
  | Cmd.exportWatchingWalletCmd a d => Cmd.exportWatchingWalletCmd a (some (d.getD false))
  | c => c

end ulordjson

namespace UlordSync

/-- Uniqueness of registered peer identifiers in the table. -/
def NodupIDs (ps : List PeerState) : Prop :=
  (ps.map PeerState.peerID).Nodup

/-- No-duplicate-fan-out for blocks (§8): each hash is in the requestedBlocks
set of at most one peer. -/
def BlocksDisjoint (ps : List PeerState) : Prop :=
  ∀ h, blockCount ps h ≤ 1

/-- No-duplicate-fan-out for transactions. -/
def TxsDisjoint (ps : List PeerState) : Prop :=
  ∀ h, txCount ps h ≤ 1

/-- A peer with identifier `x` exists in the table and is a sync candidate. -/
def wfIn (ps : List PeerState) (x : Nat) : Prop :=
  ∃ p, p ∈ ps ∧ p.peerID = x ∧ p.isSyncCandidate = true

/-- SyncState invariant (§3): if currentSyncPeer is set, that peer's
PeerState exists and is marked syncCandidate. -/
def SyncWF (s : ManagerState) : Prop :=
  ∀ pid, s.sync.currentSyncPeer = some pid → wfIn s.peers pid

/-- Header-queue invariant: queued headers have consecutive heights ending at
the best known height. -/
def QueueChain (s : ManagerState) : Prop :=
  chainHeights s.headerQueue = true ∧
    (s.headerQueue ≠ [] → lastHeight 0 s.headerQueue = s.sync.bestKnownHeight)

/-- The inductive invariant of the serializer loop's state. -/
def Inv (s : ManagerState) : Prop :=
  NodupIDs s.peers ∧ BlocksDisjoint s.peers ∧ TxsDisjoint s.peers ∧ SyncWF s ∧
    QueueChain s

/-- A chain of `k` orphan blocks: the first has parent `a` and each later one
has the previous one as parent (hashes `a+1 … a+k`). -/
def chainPool (a : Nat) : Nat → List OrphanBlock
  | 0 => []
  | k + 1 => { blockHash := a + 1, parentHash := a, receivedAt := 0 } :: chainPool (a + 1) k

/-- The event is a Chain Validator acceptance reporting a new tip (the
explicit reorg update of §4.3). -/
def isNewTipEvent : Event → Bool
  | Event.blockReceived _ _ _ (BlockDisposition.accepted true _ _) _ => true
  | _ => false

/-- Number of PeerStates with Active (sync peer) status. -/
def activeCount (s : ManagerState) : Nat :=
  s.peers.countP (fun p => s.sync.currentSyncPeer == some p.peerID)

/-- A freshly connected PeerState used by concrete witness scenarios. -/
def witnessPeer (pid : Nat) (height : Nat) (cand : Bool)
    (blocks txs : List Nat) (t : Nat) : PeerState :=
  { peerID := pid, protocolHeight := height, isSyncCandidate := cand,
    requestedBlocks := blocks, requestedTxs := txs, lastBlockAnnounced := 0,
    lastAnnouncedTime := 0, stallScore := 0, connectedAt := t, lastActivity := t }

/-- Concrete state for the orphan-promotion witness: one registered peer and a
pool holding a chain of three orphans. -/
def c4State : ManagerState :=
  { initState with peers := [witnessPeer 1 10 true [] [] 0], orphans := chainPool 100 3 }

/-- Concrete state for the stall-reassignment witness: peer 1 is idle and
eligible, peer 2 has one block request outstanding since time 0. -/
def c5State : ManagerState :=
  { initState with peers := [witnessPeer 1 100 true [] [] 0, witnessPeer 2 90 true [42] [] 0] }

theorem countP_updateFirst_le (q : PeerState → Bool) (f : PeerState → PeerState)
    (pid : Nat) (hf : ∀ p, q (f p) = true → q p = true) :
    ∀ ps : List PeerState, (updateFirst ps pid f).countP q ≤ ps.countP q := by
  intro ps
  induction ps with
  | nil => simp [updateFirst]
  | cons p rest ih =>
    by_cases hp : p.peerID = pid
    · simp only [updateFirst, if_pos hp, List.countP_cons]
      have : (if q (f p) = true then 1 else 0) ≤ (if q p = true then 1 else 0) := by
        by_cases hq : q (f p) = true
        · simp [hq, hf p hq]
        · simp [hq]
      omega
    · simp only [updateFirst, if_neg hp, List.countP_cons]
      omega

theorem countP_updateFirst_le_one (q : PeerState → Bool) (f : PeerState → PeerState)
    (pid : Nat) :
    ∀ ps : List PeerState, ps.countP q = 0 → (updateFirst ps pid f).countP q ≤ 1 := by
  intro ps
  induction ps with
  | nil => simp [updateFirst]
  | cons p rest ih =>
    intro h0
    simp only [List.countP_cons] at h0
    by_cases hp : p.peerID = pid
    · simp only [updateFirst, if_pos hp, List.countP_cons]
      have h1 : rest.countP q = 0 := by omega
      have : (if q (f p) = true then 1 else 0) ≤ 1 := by
        by_cases hq : q (f p) = true <;> simp [hq]
      omega
    · simp only [updateFirst, if_neg hp, List.countP_cons]
      have h1 : rest.countP q = 0 := by omega
      have h2 : (if q p = true then 1 else 0) = 0 := by omega
      have := ih h1
      omega

theorem countP_map_le (q : PeerState → Bool) (f : PeerState → PeerState)
    (hf : ∀ p, q (f p) = true → q p = true) :
    ∀ ps : List PeerState, (ps.map f).countP q ≤ ps.countP q := by
  intro ps
  induction ps with
  | nil => simp
  | cons p rest ih =>
    simp only [List.map_cons, List.countP_cons]
    have : (if q (f p) = true then 1 else 0) ≤ (if q p = true then 1 else 0) := by
      by_cases hq : q (f p) = true
      · simp [hq, hf p hq]
      · simp [hq]
    omega

theorem mem_updateFirst_of_ne (f : PeerState → PeerState) (pid : Nat)
    (r : PeerState) (hr : r.peerID ≠ pid) :
    ∀ ps : List PeerState, r ∈ ps → r ∈ updateFirst ps pid f := by
  intro ps
  induction ps with
  | nil => simp
  | cons p rest ih =>
    intro hmem
    rcases List.mem_cons.mp hmem with hEq | hRest
    · subst hEq
      simp [updateFirst, if_neg hr]
    · by_cases hp : p.peerID = pid
      · simp [updateFirst, if_pos hp, hRest]
      · simp only [updateFirst, if_neg hp]
        exact List.mem_cons_of_mem p (ih hRest)

theorem mem_updateFirst_self (f : PeerState → PeerState) (r : PeerState) :
    ∀ ps : List PeerState, NodupIDs ps → r ∈ ps →
      f r ∈ updateFirst ps r.peerID f := by
  intro ps
  induction ps with
  | nil => simp
  | cons p rest ih =>
    intro hnd hmem
    have hnd' : NodupIDs rest := by
      simpa [NodupIDs] using (List.nodup_cons.mp hnd).2
    rcases List.mem_cons.mp hmem with hEq | hRest
    · subst hEq
      simp [updateFirst]
    · by_cases hp : p.peerID = r.peerID
      · exfalso
        have : p.peerID ∉ rest.map PeerState.peerID := (List.nodup_cons.mp hnd).1
        exact this (hp ▸ List.mem_map_of_mem PeerState.peerID hRest)
      · simp only [updateFirst, if_neg hp]
        exact List.mem_cons_of_mem p (ih hnd' hRest)

theorem ids_updateFirst (f : PeerState → PeerState) (pid : Nat)
    (hf : ∀ p, (f p).peerID = p.peerID) :
    ∀ ps : List PeerState,
      (updateFirst ps pid f).map PeerState.peerID = ps.map PeerState.peerID := by
  intro ps
  induction ps with
  | nil => simp [updateFirst]
  | cons p rest ih =>
    by_cases hp : p.peerID = pid
    · simp [updateFirst, if_pos hp, hf]
    · simp [updateFirst, if_neg hp, ih]

theorem ids_map (f : PeerState → PeerState) (hf : ∀ p, (f p).peerID = p.peerID) :
    ∀ ps : List PeerState, (ps.map f).map PeerState.peerID = ps.map PeerState.peerID := by
  intro ps
  induction ps with
  | nil => simp
  | cons p rest ih => simp [hf, ih]

theorem wfIn_updateFirst (f : PeerState → PeerState) (pid : Nat) (x : Nat)
    (hid : ∀ p, (f p).peerID = p.peerID)
    (hc : ∀ p, (f p).isSyncCandidate = p.isSyncCandidate) :
    ∀ ps : List PeerState, wfIn ps x → wfIn (updateFirst ps pid f) x := by
  intro ps
  induction ps with
  | nil => simp [wfIn]
  | cons p rest ih =>
    rintro ⟨r, hmem, hrx, hrc⟩
    rcases List.mem_cons.mp hmem with hEq | hRest
    · subst hEq
      by_cases hp : r.peerID = pid
      · exact ⟨f r, by simp [updateFirst, if_pos hp], by rw [hid]; exact hrx, by rw [hc]; exact hrc⟩
      · exact ⟨r, by simp [updateFirst, if_neg hp], hrx, hrc⟩
    · by_cases hp : p.peerID = pid
      · exact ⟨r, by simp [updateFirst, if_pos hp, hRest], hrx, hrc⟩
      · rcases ih ⟨r, hRest, hrx, hrc⟩ with ⟨r', hmem', hrx', hrc'⟩
        exact ⟨r', by simp [updateFirst, if_neg hp]; right; exact hmem', hrx', hrc'⟩

theorem wfIn_map (f : PeerState → PeerState) (x : Nat)
    (hid : ∀ p, (f p).peerID = p.peerID)
    (hc : ∀ p, (f p).isSyncCandidate = p.isSyncCandidate) :
    ∀ ps : List PeerState, wfIn ps x → wfIn (ps.map f) x := by
  rintro ps ⟨r, hmem, hrx, hrc⟩
  exact ⟨f r, List.mem_map_of_mem f hmem, by rw [hid]; exact hrx, by rw [hc]; exact hrc⟩

theorem wfIn_filter_ne (pid : Nat) (x : Nat) (hx : x ≠ pid) :
    ∀ ps : List PeerState, wfIn ps x →
      wfIn (ps.filter (fun p => !(p.peerID == pid))) x := by
  rintro ps ⟨r, hmem, hrx, hrc⟩
  refine ⟨r, List.mem_filter.mpr ⟨hmem, ?_⟩, hrx, hrc⟩
  simp [hrx, hx]

theorem holders_unique (q : PeerState → Bool) :
    ∀ ps : List PeerState, ps.countP q ≤ 1 → ∀ a ∈ ps, ∀ b ∈ ps,
      q a = true → q b = true → a = b := by
  intro ps
  induction ps with
  | nil => simp
  | cons p rest ih =>
    intro hc a ha b hb hqa hqb
    simp only [List.countP_cons] at hc
    rcases List.mem_cons.mp ha with haEq | haRest <;>
      rcases List.mem_cons.mp hb with hbEq | hbRest
    · rw [haEq, hbEq]
    · exfalso
      have h1 : (if q p = true then 1 else 0) = 1 := by rw [haEq] at hqa; simp [hqa]
      have h0 : rest.countP q = 0 := by omega
      exact (List.countP_eq_zero.mp h0 b hbRest) hqb
    · exfalso
      have h1 : (if q p = true then 1 else 0) = 1 := by rw [hbEq] at hqb; simp [hqb]
      have h0 : rest.countP q = 0 := by omega
      exact (List.countP_eq_zero.mp h0 a haRest) hqa
    · exact ih (by omega) a haRest b hbRest hqa hqb

theorem inFlightBlock_false_iff (ps : List PeerState) (h : Nat) :
    inFlightBlock ps h = false ↔ blockCount ps h = 0 := by
  simp only [inFlightBlock, blockCount]
  constructor
  · intro hf
    exact List.countP_eq_zero.mpr (by
      intro p hp hq
      have : ps.any (holdsBlock h) = true := List.any_eq_true.mpr ⟨p, hp, hq⟩
      rw [hf] at this
      exact Bool.false_ne_true this)
  · intro h0
    by_contra hne
    have : ps.any (holdsBlock h) = true := by
      cases hv : ps.any (holdsBlock h)
      · exact absurd hv hne
      · rfl
    rcases List.any_eq_true.mp this with ⟨p, hp, hq⟩
    exact (List.countP_eq_zero.mp h0 p hp) hq

theorem inFlightTx_false_iff (ps : List PeerState) (h : Nat) :
    inFlightTx ps h = false ↔ txCount ps h = 0 := by
  simp only [inFlightTx, txCount]
  constructor
  · intro hf
    exact List.countP_eq_zero.mpr (by
      intro p hp hq
      have : ps.any (holdsTx h) = true := List.any_eq_true.mpr ⟨p, hp, hq⟩
      rw [hf] at this
      exact Bool.false_ne_true this)
  · intro h0
    by_contra hne
    have : ps.any (holdsTx h) = true := by
      cases hv : ps.any (holdsTx h)
      · exact absurd hv hne
      · rfl
    rcases List.any_eq_true.mp this with ⟨p, hp, hq⟩
    exact (List.countP_eq_zero.mp h0 p hp) hq

end UlordSync

namespace UlordSync

theorem countP_updateFirst_eq (q : PeerState → Bool) (f : PeerState → PeerState)
    (pid : Nat) (hf : ∀ p, q (f p) = q p) :
    ∀ ps : List PeerState, (updateFirst ps pid f).countP q = ps.countP q := by
  intro ps
  induction ps with
  | nil => simp [updateFirst]
  | cons p rest ih =>
    by_cases hp : p.peerID = pid
    · simp [updateFirst, if_pos hp, List.countP_cons, hf]
    · simp [updateFirst, if_neg hp, List.countP_cons, ih]

theorem blocksDisjoint_addFresh (ps : List PeerState) (pid : Nat)
    (fresh : List Nat) (t : Nat)
    (hfresh : ∀ h ∈ fresh, inFlightBlock ps h = false) (hd : BlocksDisjoint ps) :
    BlocksDisjoint (updateFirst ps pid (fun p =>
      { p with requestedBlocks := p.requestedBlocks ++ fresh, lastActivity := t })) := by
  intro h
  by_cases hmem : h ∈ fresh
  · exact countP_updateFirst_le_one _ _ _ ps
      ((inFlightBlock_false_iff ps h).mp (hfresh h hmem))
  · refine le_trans (countP_updateFirst_le _ _ _ ?_ ps) (hd h)
    intro p hq
    simp only [holdsBlock] at hq ⊢
    have hmem' : h ∈ p.requestedBlocks ++ fresh := List.elem_iff.mp hq
    rcases List.mem_append.mp hmem' with h1 | h2
    · exact List.elem_iff.mpr h1
    · exact absurd h2 hmem

theorem txsDisjoint_addFresh (ps : List PeerState) (pid : Nat)
    (fresh : List Nat) (t : Nat)
    (hfresh : ∀ h ∈ fresh, inFlightTx ps h = false) (hd : TxsDisjoint ps) :
    TxsDisjoint (updateFirst ps pid (fun p =>
      { p with requestedTxs := p.requestedTxs ++ fresh, lastActivity := t })) := by
  intro h
  by_cases hmem : h ∈ fresh
  · exact countP_updateFirst_le_one _ _ _ ps
      ((inFlightTx_false_iff ps h).mp (hfresh h hmem))
  · refine le_trans (countP_updateFirst_le _ _ _ ?_ ps) (hd h)
    intro p hq
    simp only [holdsTx] at hq ⊢
    have hmem' : h ∈ p.requestedTxs ++ fresh := List.elem_iff.mp hq
    rcases List.mem_append.mp hmem' with h1 | h2
    · exact List.elem_iff.mpr h1
    · exact absurd h2 hmem

theorem pairwiseDisjBlocks_disjoint :
    ∀ ps : List PeerState, pairwiseDisjBlocksB ps = true → BlocksDisjoint ps := by
  intro ps
  induction ps with
  | nil => intro _ h; simp [blockCount]
  | cons p rest ih =>
    intro hpw h
    simp only [pairwiseDisjBlocksB, Bool.and_eq_true] at hpw
    simp only [blockCount, List.countP_cons]
    by_cases hp : holdsBlock h p = true
    · have h0 : rest.countP (holdsBlock h) = 0 := by
        refine List.countP_eq_zero.mpr ?_
        intro q hq hqh
        have hall := (List.all_eq_true.mp hpw.1) q hq
        simp only [disjBlocksB, List.all_eq_true] at hall
        have hmem : h ∈ p.requestedBlocks := by
          simpa using List.elem_iff.mp (by simpa [holdsBlock] using hp)
        have := hall h hmem
        simp only [holdsBlock] at hqh
        rw [hqh] at this
        exact Bool.false_ne_true (by simpa using this)
      simp only [blockCount] at h0
      rw [if_pos hp]
      omega
    · have := ih hpw.2 h
      simp only [blockCount] at this
      rw [if_neg hp]
      omega

theorem pairwiseDisjTxs_disjoint :
    ∀ ps : List PeerState, pairwiseDisjTxsB ps = true → TxsDisjoint ps := by
  intro ps
  induction ps with
  | nil => intro _ h; simp [txCount]
  | cons p rest ih =>
    intro hpw h
    simp only [pairwiseDisjTxsB, Bool.and_eq_true] at hpw
    simp only [txCount, List.countP_cons]
    by_cases hp : holdsTx h p = true
    · have h0 : rest.countP (holdsTx h) = 0 := by
        refine List.countP_eq_zero.mpr ?_
        intro q hq hqh
        have hall := (List.all_eq_true.mp hpw.1) q hq
        simp only [disjTxsB, List.all_eq_true] at hall
        have hmem : h ∈ p.requestedTxs := by
          simpa using List.elem_iff.mp (by simpa [holdsTx] using hp)
        have := hall h hmem
        simp only [holdsTx] at hqh
        rw [hqh] at this
        exact Bool.false_ne_true (by simpa using this)
      simp only [txCount] at h0
      rw [if_pos hp]
      omega
    · have := ih hpw.2 h
      simp only [txCount] at this
      rw [if_neg hp]
      omega

theorem chainHeights_tail (a : Nat × Nat) (l : List (Nat × Nat))
    (h : chainHeights (a :: l) = true) : chainHeights l = true := by
  cases l with
  | nil => rfl
  | cons b t =>
    simp only [chainHeights, Bool.and_eq_true] at h
    exact h.2

theorem chainHeights_of_contFrom :
    ∀ (l : List (Nat × Nat)) (n : Nat), contFrom n l = true → chainHeights l = true := by
  intro l
  induction l with
  | nil => intro n _; rfl
  | cons hp rest ih =>
    intro n hc
    simp only [contFrom, Bool.and_eq_true] at hc
    cases rest with
    | nil => rfl
    | cons b t =>
      have hrest := hc.2
      simp only [contFrom, Bool.and_eq_true] at hrest
      simp only [chainHeights, Bool.and_eq_true]
      exact ⟨hrest.1, ih hp.2 hc.2⟩

theorem chainHeights_append_cont :
    ∀ (ql : List (Nat × Nat)) (n : Nat) (hs : List (Nat × Nat)),
      chainHeights ql = true → (ql ≠ [] → lastHeight 0 ql = n) →
      contFrom n hs = true → chainHeights (ql ++ hs) = true := by
  intro ql
  induction ql with
  | nil =>
    intro n hs _ _ hc
    simpa using chainHeights_of_contFrom hs n hc
  | cons a rest ih =>
    intro n hs hch hlast hc
    cases rest with
    | nil =>
      cases hs with
      | nil => rfl
      | cons hp t =>
        simp only [contFrom, Bool.and_eq_true] at hc
        have ha : lastHeight 0 [a] = n := hlast (by simp)
        simp only [lastHeight] at ha
        simp only [List.cons_append, List.nil_append, chainHeights, Bool.and_eq_true]
        constructor
        · have : hp.2 = n + 1 := by simpa using hc.1
          simp [this, ha]
        · exact chainHeights_of_contFrom (hp :: t) n (by
            simp only [contFrom, Bool.and_eq_true]; exact hc)
    | cons b t =>
      simp only [chainHeights, Bool.and_eq_true] at hch
      have hlast' : (b :: t) ≠ [] → lastHeight 0 (b :: t) = n := by
        intro _
        have := hlast (by simp)
        simpa [lastHeight] using this
      have := ih n hs hch.2 hlast' hc
      simp only [List.cons_append, chainHeights, Bool.and_eq_true]
      cases t with
      | nil => exact ⟨hch.1, this⟩
      | cons c u => exact ⟨hch.1, this⟩

theorem chainHeights_take :
    ∀ (l : List (Nat × Nat)) (n : Nat), chainHeights l = true →
      chainHeights (l.take n) = true := by
  intro l
  induction l with
  | nil => intro n _; simp [chainHeights]
  | cons a rest ih =>
    intro n h
    cases n with
    | zero => rfl
    | succ m =>
      cases rest with
      | nil => simp [chainHeights]
      | cons b t =>
        simp only [chainHeights, Bool.and_eq_true] at h
        cases m with
        | zero => rfl
        | succ k =>
          simp only [List.take_succ_cons, chainHeights, Bool.and_eq_true]
          have := ih (k + 1) h.2
          simp only [List.take_succ_cons] at this
          exact ⟨h.1, by simpa using this⟩

theorem chainHeights_drop :
    ∀ (n : Nat) (l : List (Nat × Nat)), chainHeights l = true →
      chainHeights (l.drop n) = true := by
  intro n
  induction n with
  | zero => intro l h; simpa using h
  | succ m ih =>
    intro l h
    cases l with
    | nil => rfl
    | cons a rest =>
      simp only [List.drop_succ_cons]
      exact ih rest (chainHeights_tail a rest h)

theorem lastHeight_drop :
    ∀ (n : Nat) (l : List (Nat × Nat)), l.drop n ≠ [] →
      lastHeight 0 (l.drop n) = lastHeight 0 l := by
  intro n
  induction n with
  | zero => intro l _; rfl
  | succ m ih =>
    intro l hne
    cases l with
    | nil => simp at hne
    | cons a rest =>
      simp only [List.drop_succ_cons] at hne ⊢
      have hrne : rest ≠ [] := by
        intro hr
        rw [hr] at hne
        simp at hne
      rw [ih rest hne]
      cases rest with
      | nil => exact absurd rfl hrne
      | cons b t => rfl

theorem lastHeight_append :
    ∀ (ql hs : List (Nat × Nat)), hs ≠ [] →
      lastHeight 0 (ql ++ hs) = lastHeight 0 hs := by
  intro ql
  induction ql with
  | nil => intro hs _; rfl
  | cons a rest ih =>
    intro hs hne
    rw [List.cons_append]
    have hne' : rest ++ hs ≠ [] := by
      simp [hne]
    cases hr : rest ++ hs with
    | nil => exact absurd hr hne'
    | cons b t =>
      have hstep : lastHeight 0 (a :: b :: t) = lastHeight 0 (b :: t) := rfl
      rw [hstep, ← hr]
      exact ih hs hne

theorem contFrom_lt_lastHeight :
    ∀ (l : List (Nat × Nat)) (n : Nat), contFrom n l = true → l ≠ [] →
      n < lastHeight 0 l := by
  intro l
  induction l with
  | nil => intro n _ hne; exact absurd rfl hne
  | cons hp rest ih =>
    intro n hc _
    simp only [contFrom, Bool.and_eq_true] at hc
    have h1 : hp.2 = n + 1 := by simpa using hc.1
    cases rest with
    | nil =>
      simp [lastHeight, h1]
    | cons b t =>
      have := ih hp.2 hc.2 (by simp)
      simp only [lastHeight]
      omega

theorem bestCandidate_mem :
    ∀ ps : List PeerState, ∀ q, bestCandidate ps = some q →
      q ∈ ps ∧ q.isSyncCandidate = true := by
  intro ps
  induction ps with
  | nil => intro q h; simp [bestCandidate] at h
  | cons p rest ih =>
    intro q h
    rw [show bestCandidate (p :: rest) = chooseBetter p (bestCandidate rest) from rfl] at h
    cases hr : bestCandidate rest with
    | none =>
      rw [hr] at h
      simp only [chooseBetter] at h
      by_cases hc : p.isSyncCandidate = true
      · rw [if_pos hc] at h
        injection h with hq
        subst hq
        exact ⟨List.mem_cons_self p rest, hc⟩
      · rw [if_neg (by simpa using hc)] at h
        cases h
    | some r =>
      rw [hr] at h
      simp only [chooseBetter] at h
      by_cases hcb : (p.isSyncCandidate && betterCandidate p r) = true
      · rw [if_pos hcb] at h
        injection h with hq
        subst hq
        exact ⟨List.mem_cons_self p rest, (Bool.and_eq_true .. ▸ hcb).1⟩
      · rw [if_neg hcb] at h
        injection h with hq
        subst hq
        rcases ih r hr with ⟨hm, hc⟩
        exact ⟨List.mem_cons_of_mem p hm, hc⟩

theorem bestCandidate_none :
    ∀ ps : List PeerState, bestCandidate ps = none →
      ∀ r ∈ ps, r.isSyncCandidate = false := by
  intro ps
  induction ps with
  | nil => intro _ r h; simp at h
  | cons p rest ih =>
    intro h r hr
    rw [show bestCandidate (p :: rest) = chooseBetter p (bestCandidate rest) from rfl] at h
    cases hb : bestCandidate rest with
    | none =>
      rw [hb] at h
      simp only [chooseBetter] at h
      by_cases hc : p.isSyncCandidate = true
      · rw [if_pos hc] at h; cases h
      · rcases List.mem_cons.mp hr with hEq | hRest
        · subst hEq; simpa using hc
        · exact ih hb r hRest
    | some q =>
      rw [hb] at h
      simp only [chooseBetter] at h
      by_cases hcb : (p.isSyncCandidate && betterCandidate p q) = true
      · rw [if_pos hcb] at h; cases h
      · rw [if_neg hcb] at h; cases h

theorem bestCandidate_argmax :
    ∀ ps : List PeerState, ∀ q, bestCandidate ps = some q →
      ∀ r ∈ ps, r.isSyncCandidate = true →
        r.protocolHeight ≤ q.protocolHeight ∧
          (r.protocolHeight = q.protocolHeight → q.connectedAt ≤ r.connectedAt) := by
  intro ps
  induction ps with
  | nil => intro q h; simp [bestCandidate] at h
  | cons p rest ih =>
    intro q h r hr hrc
    rw [show bestCandidate (p :: rest) = chooseBetter p (bestCandidate rest) from rfl] at h
    cases hb : bestCandidate rest with
    | none =>
      rw [hb] at h
      simp only [chooseBetter] at h
      by_cases hc : p.isSyncCandidate = true
      · rw [if_pos hc] at h
        injection h with hq
        subst hq
        rcases List.mem_cons.mp hr with hEq | hRest
        · subst hEq; exact ⟨le_refl _, fun _ => le_refl _⟩
        · exact absurd hrc (by simp [bestCandidate_none rest hb r hRest])
      · rw [if_neg (by simpa using hc)] at h
        cases h
    | some w =>
      rw [hb] at h
      simp only [chooseBetter] at h
      by_cases hcb : (p.isSyncCandidate && betterCandidate p w) = true
      · rw [if_pos hcb] at h
        injection h with hq
        subst hq
        have hbet : betterCandidate p w = true := (Bool.and_eq_true .. ▸ hcb).2
        simp only [betterCandidate, Bool.or_eq_true, Bool.and_eq_true,
          decide_eq_true_eq, beq_iff_eq] at hbet
        rcases List.mem_cons.mp hr with hEq | hRest
        · subst hEq; exact ⟨le_refl _, fun _ => le_refl _⟩
        · rcases ih w hb r hRest hrc with ⟨h1, h2⟩
          constructor
          · rcases hbet with hlt | ⟨hEqh, _⟩
            · omega
            · omega
          · intro hEqh
            rcases hbet with hlt | ⟨hEqh', hta⟩
            · omega
            · have := h2 (by omega)
              exact le_trans (le_of_lt hta) this
      · rw [if_neg hcb] at h
        injection h with hq
        subst hq
        rcases List.mem_cons.mp hr with hEq | hRest
        · subst hEq
          have hnb : betterCandidate r w = false := by
            cases hv : betterCandidate r w
            · rfl
            · exact absurd (by simp [hrc, hv] : (r.isSyncCandidate && betterCandidate r w) = true) hcb
          simp only [betterCandidate, Bool.or_eq_false_iff, Bool.and_eq_false_iff] at hnb
          rcases hnb with ⟨hn1, hn2⟩
          have hle : r.protocolHeight ≤ w.protocolHeight := by
            simpa using Nat.le_of_not_lt (by simpa using hn1)
          refine ⟨hle, ?_⟩
          intro hEqh
          rcases hn2 with hne | hnlt
          · exfalso
            exact (by simpa using hne : ¬ w.protocolHeight = r.protocolHeight) hEqh.symm
          · simpa using Nat.le_of_not_lt (by simpa using hnlt)
        · exact ih w hb r hRest hrc

end UlordSync

namespace UlordSync

theorem nodupIDs_filter (f : PeerState → Bool) (ps : List PeerState)
    (h : NodupIDs ps) : NodupIDs (ps.filter f) := by
  exact List.Nodup.sublist (List.Sublist.map PeerState.peerID (List.filter_sublist ps)) h

theorem nodupIDs_updateFirst (ps : List PeerState) (pid : Nat)
    (f : PeerState → PeerState) (hf : ∀ p, (f p).peerID = p.peerID)
    (h : NodupIDs ps) : NodupIDs (updateFirst ps pid f) := by
  unfold NodupIDs
  rw [ids_updateFirst f pid hf ps]
  exact h

theorem nodupIDs_map (ps : List PeerState) (f : PeerState → PeerState)
    (hf : ∀ p, (f p).peerID = p.peerID) (h : NodupIDs ps) :
    NodupIDs (ps.map f) := by
  unfold NodupIDs
  rw [ids_map f hf ps]
  exact h

theorem knownPeer_false_not_mem (ps : List PeerState) (pid : Nat)
    (h : knownPeer ps pid = false) : ∀ p ∈ ps, p.peerID ≠ pid := by
  intro p hp hpe
  have hx : ps.any (fun p => p.peerID == pid) = true :=
    List.any_eq_true.mpr ⟨p, hp, by simp [hpe]⟩
  simp only [knownPeer] at h
  rw [h] at hx
  exact Bool.false_ne_true hx

theorem nodup_requestBlocksFrom (ps : List PeerState) (pid : Nat)
    (hs : List Nat) (t : Nat) (h : NodupIDs ps) :
    NodupIDs (requestBlocksFrom ps pid hs t).1 :=
  nodupIDs_updateFirst ps pid
    (fun p => { p with
      requestedBlocks := p.requestedBlocks ++ hs.filter (fun hh => !(inFlightBlock ps hh)),
      lastActivity := t }) (fun p => rfl) h

theorem blocks_requestBlocksFrom (ps : List PeerState) (pid : Nat)
    (hs : List Nat) (t : Nat) (h : BlocksDisjoint ps) :
    BlocksDisjoint (requestBlocksFrom ps pid hs t).1 := by
  refine blocksDisjoint_addFresh ps pid _ t ?_ h
  intro x hx
  have := List.of_mem_filter hx
  simpa using this

theorem txs_requestBlocksFrom (ps : List PeerState) (pid : Nat)
    (hs : List Nat) (t : Nat) (h : TxsDisjoint ps) :
    TxsDisjoint (requestBlocksFrom ps pid hs t).1 := by
  intro x
  have heq := countP_updateFirst_eq (holdsTx x)
    (fun p => { p with
      requestedBlocks := p.requestedBlocks ++ hs.filter (fun hh => !(inFlightBlock ps hh)),
      lastActivity := t }) pid (fun p => rfl) ps
  exact le_trans (le_of_eq heq) (h x)

theorem wf_requestBlocksFrom (ps : List PeerState) (pid : Nat)
    (hs : List Nat) (t : Nat) (x : Nat) (h : wfIn ps x) :
    wfIn (requestBlocksFrom ps pid hs t).1 x :=
  wfIn_updateFirst
    (fun p => { p with
      requestedBlocks := p.requestedBlocks ++ hs.filter (fun hh => !(inFlightBlock ps hh)),
      lastActivity := t }) pid x (fun p => rfl) (fun p => rfl) ps h

theorem nodup_requestTxsFrom (ps : List PeerState) (pid : Nat)
    (hs : List Nat) (t : Nat) (h : NodupIDs ps) :
    NodupIDs (requestTxsFrom ps pid hs t).1 :=
  nodupIDs_updateFirst ps pid
    (fun p => { p with
      requestedTxs := p.requestedTxs ++ hs.filter (fun hh => !(inFlightTx ps hh)),
      lastActivity := t }) (fun p => rfl) h

theorem txs_requestTxsFrom (ps : List PeerState) (pid : Nat)
    (hs : List Nat) (t : Nat) (h : TxsDisjoint ps) :
    TxsDisjoint (requestTxsFrom ps pid hs t).1 := by
  refine txsDisjoint_addFresh ps pid _ t ?_ h
  intro x hx
  have := List.of_mem_filter hx
  simpa using this

theorem blocks_requestTxsFrom (ps : List PeerState) (pid : Nat)
    (hs : List Nat) (t : Nat) (h : BlocksDisjoint ps) :
    BlocksDisjoint (requestTxsFrom ps pid hs t).1 := by
  intro x
  have heq := countP_updateFirst_eq (holdsBlock x)
    (fun p => { p with
      requestedTxs := p.requestedTxs ++ hs.filter (fun hh => !(inFlightTx ps hh)),
      lastActivity := t }) pid (fun p => rfl) ps
  exact le_trans (le_of_eq heq) (h x)

theorem wf_requestTxsFrom (ps : List PeerState) (pid : Nat)
    (hs : List Nat) (t : Nat) (x : Nat) (h : wfIn ps x) :
    wfIn (requestTxsFrom ps pid hs t).1 x :=
  wfIn_updateFirst
    (fun p => { p with
      requestedTxs := p.requestedTxs ++ hs.filter (fun hh => !(inFlightTx ps hh)),
      lastActivity := t }) pid x (fun p => rfl) (fun p => rfl) ps h

theorem nodup_penalize (cfg : SyncConfig) (ps : List PeerState) (pid : Nat)
    (h : NodupIDs ps) : NodupIDs (penalize cfg ps pid) :=
  nodupIDs_updateFirst ps pid
    (fun p => { p with stallScore := p.stallScore + cfg.stallPenalty })
    (fun p => rfl) h

theorem blocks_penalize (cfg : SyncConfig) (ps : List PeerState) (pid : Nat)
    (h : BlocksDisjoint ps) : BlocksDisjoint (penalize cfg ps pid) := by
  intro x
  have heq := countP_updateFirst_eq (holdsBlock x)
    (fun p => { p with stallScore := p.stallScore + cfg.stallPenalty }) pid
    (fun p => rfl) ps
  exact le_trans (le_of_eq heq) (h x)

theorem txs_penalize (cfg : SyncConfig) (ps : List PeerState) (pid : Nat)
    (h : TxsDisjoint ps) : TxsDisjoint (penalize cfg ps pid) := by
  intro x
  have heq := countP_updateFirst_eq (holdsTx x)
    (fun p => { p with stallScore := p.stallScore + cfg.stallPenalty }) pid
    (fun p => rfl) ps
  exact le_trans (le_of_eq heq) (h x)

theorem wf_penalize (cfg : SyncConfig) (ps : List PeerState) (pid : Nat)
    (x : Nat) (h : wfIn ps x) : wfIn (penalize cfg ps pid) x :=
  wfIn_updateFirst
    (fun p => { p with stallScore := p.stallScore + cfg.stallPenalty }) pid x
    (fun p => rfl) (fun p => rfl) ps h

end UlordSync

namespace UlordSync

theorem wfIn_cons (p0 : PeerState) (ps : List PeerState) (x : Nat)
    (h : wfIn ps x) : wfIn (p0 :: ps) x := by
  rcases h with ⟨r, hm, hx, hc⟩
  exact ⟨r, List.mem_cons_of_mem p0 hm, hx, hc⟩

theorem blocksDisjoint_cons_empty (p0 : PeerState) (ps : List PeerState)
    (he : p0.requestedBlocks = []) (h : BlocksDisjoint ps) :
    BlocksDisjoint (p0 :: ps) := by
  intro x
  simp only [blockCount, List.countP_cons]
  have : holdsBlock x p0 = false := by simp [holdsBlock, he]
  rw [this]
  simpa [blockCount] using h x

theorem txsDisjoint_cons_empty (p0 : PeerState) (ps : List PeerState)
    (he : p0.requestedTxs = []) (h : TxsDisjoint ps) :
    TxsDisjoint (p0 :: ps) := by
  intro x
  simp only [txCount, List.countP_cons]
  have : holdsTx x p0 = false := by simp [holdsTx, he]
  rw [this]
  simpa [txCount] using h x

theorem nodupIDs_cons (p0 : PeerState) (ps : List PeerState)
    (hnot : ∀ p ∈ ps, p.peerID ≠ p0.peerID) (h : NodupIDs ps) :
    NodupIDs (p0 :: ps) := by
  unfold NodupIDs
  simp only [List.map_cons]
  refine List.nodup_cons.mpr ⟨?_, h⟩
  intro hmem
  rcases List.mem_map.mp hmem with ⟨r, hr, hre⟩
  exact hnot r hr hre

theorem holds_remove_block (h x : Nat) (t : Nat) (p : PeerState) :
    holdsBlock x ({ p with
      requestedBlocks := p.requestedBlocks.filter (fun y => !(y == h)),
      lastActivity := t }) = true → holdsBlock x p = true := by
  intro hq
  simp only [holdsBlock] at hq ⊢
  exact List.elem_iff.mpr (List.mem_of_mem_filter (List.elem_iff.mp hq))

theorem holds_remove_tx (h x : Nat) (t : Nat) (p : PeerState) :
    holdsTx x ({ p with
      requestedTxs := p.requestedTxs.filter (fun y => !(y == h)),
      lastActivity := t }) = true → holdsTx x p = true := by
  intro hq
  simp only [holdsTx] at hq ⊢
  exact List.elem_iff.mpr (List.mem_of_mem_filter (List.elem_iff.mp hq))

theorem inv_processPeerConnected (cfg : SyncConfig) (s : ManagerState)
    (pid : Nat) (height : Nat) (cand : Bool) (hI : Inv s) :
    Inv (processPeerConnected cfg s pid height cand).1 := by
  obtain ⟨hN, hB, hT, hW, hQ⟩ := hI
  simp only [processPeerConnected]
  by_cases hk : knownPeer s.peers pid = true
  · rw [if_pos hk]
    exact ⟨hN, hB, hT, hW, hQ⟩
  · have hk' : knownPeer s.peers pid = false := by
      cases hv : knownPeer s.peers pid
      · rfl
      · exact absurd hv hk
    rw [if_neg hk]
    have hnot := knownPeer_false_not_mem s.peers pid hk'
    cases hsp : s.sync.currentSyncPeer with
    | some y =>
      refine ⟨nodupIDs_cons _ _ (fun p hp => hnot p hp) hN,
        blocksDisjoint_cons_empty _ _ rfl hB,
        txsDisjoint_cons_empty _ _ rfl hT, ?_, hQ⟩
      intro z hz
      simp only at hz
      rw [hsp] at hz
      exact wfIn_cons _ _ z (hW z (by rw [hsp]; exact hz))
    | none =>
      by_cases hsel : (cand && decide (s.sync.bestKnownHeight ≤ height)) = true
      · rw [if_pos hsel]
        refine ⟨nodupIDs_cons _ _ (fun p hp => hnot p hp) hN,
          blocksDisjoint_cons_empty _ _ rfl hB,
          txsDisjoint_cons_empty _ _ rfl hT, ?_, hQ⟩
        intro z hz
        simp only [Option.some.injEq] at hz
        subst hz
        exact ⟨_, List.mem_cons_self _ _, rfl, (Bool.and_eq_true .. ▸ hsel).1⟩
      · rw [if_neg hsel]
        refine ⟨nodupIDs_cons _ _ (fun p hp => hnot p hp) hN,
          blocksDisjoint_cons_empty _ _ rfl hB,
          txsDisjoint_cons_empty _ _ rfl hT, ?_, hQ⟩
        intro z hz
        simp only at hz
        rw [hsp] at hz
        cases hz

theorem inv_processTxReceived (cfg : SyncConfig) (s : ManagerState)
    (pid : Nat) (tx : Nat) (acc : Bool) (hI : Inv s) :
    Inv (processTxReceived cfg s pid tx acc).1 := by
  obtain ⟨hN, hB, hT, hW, hQ⟩ := hI
  simp only [processTxReceived]
  by_cases hk : (!(knownPeer s.peers pid)) = true
  · rw [if_pos hk]
    exact ⟨hN, hB, hT, hW, hQ⟩
  · rw [if_neg hk]
    refine ⟨nodupIDs_updateFirst _ _ _ (fun p => rfl) hN, ?_, ?_, ?_, hQ⟩
    · intro x
      have heq := countP_updateFirst_eq (holdsBlock x)
        (fun p => { p with
          requestedTxs := p.requestedTxs.filter (fun y => !(y == tx)),
          lastActivity := s.now }) pid (fun p => rfl) s.peers
      exact le_trans (le_of_eq heq) (hB x)
    · intro x
      exact le_trans
        (countP_updateFirst_le (holdsTx x) _ pid (holds_remove_tx tx x s.now) s.peers)
        (hT x)
    · intro z hz
      exact wfIn_updateFirst
        (fun p => { p with
          requestedTxs := p.requestedTxs.filter (fun y => !(y == tx)),
          lastActivity := s.now }) pid z (fun p => rfl) (fun p => rfl) s.peers (hW z hz)

end UlordSync

namespace UlordSync

theorem lastHeight_irrel (d d' : Nat) :
    ∀ l : List (Nat × Nat), l ≠ [] → lastHeight d l = lastHeight d' l := by
  intro l
  induction l with
  | nil => intro h; exact absurd rfl h
  | cons a rest ih =>
    intro _
    cases rest with
    | nil => rfl
    | cons b t =>
      have := ih (by simp)
      simpa [lastHeight] using this

theorem inv_processBlockReceived (cfg : SyncConfig) (s : ManagerState)
    (pid : Nat) (h parent : Nat) (disp : BlockDisposition) (pv : Nat → Bool)
    (hI : Inv s) : Inv (processBlockReceived cfg s pid h parent disp pv).1 := by
  obtain ⟨hN, hB, hT, hW, hQ⟩ := hI
  simp only [processBlockReceived]
  by_cases hk : (!(knownPeer s.peers pid)) = true
  · rw [if_pos hk]
    exact ⟨hN, hB, hT, hW, hQ⟩
  · rw [if_neg hk]
    have hN1 : NodupIDs (updateFirst s.peers pid (fun p =>
        { p with requestedBlocks := p.requestedBlocks.filter (fun x => !(x == h)),
                 lastActivity := s.now })) :=
      nodupIDs_updateFirst _ _ _ (fun p => rfl) hN
    have hB1 : BlocksDisjoint (updateFirst s.peers pid (fun p =>
        { p with requestedBlocks := p.requestedBlocks.filter (fun x => !(x == h)),
                 lastActivity := s.now })) := by
      intro x
      exact le_trans
        (countP_updateFirst_le (holdsBlock x) _ pid (holds_remove_block h x s.now) s.peers)
        (hB x)
    have hT1 : TxsDisjoint (updateFirst s.peers pid (fun p =>
        { p with requestedBlocks := p.requestedBlocks.filter (fun x => !(x == h)),
                 lastActivity := s.now })) := by
      intro x
      have heq := countP_updateFirst_eq (holdsTx x)
        (fun p => { p with
          requestedBlocks := p.requestedBlocks.filter (fun y => !(y == h)),
          lastActivity := s.now }) pid (fun p => rfl) s.peers
      exact le_trans (le_of_eq heq) (hT x)
    have hW1 : ∀ z, s.sync.currentSyncPeer = some z →
        wfIn (updateFirst s.peers pid (fun p =>
          { p with requestedBlocks := p.requestedBlocks.filter (fun x => !(x == h)),
                   lastActivity := s.now })) z := by
      intro z hz
      exact wfIn_updateFirst
        (fun p => { p with
          requestedBlocks := p.requestedBlocks.filter (fun y => !(y == h)),
          lastActivity := s.now }) pid z (fun p => rfl) (fun p => rfl) s.peers (hW z hz)
    cases disp with
    | orphaned =>
      exact ⟨nodup_requestBlocksFrom _ _ _ _ hN1,
        blocks_requestBlocksFrom _ _ _ _ hB1,
        txs_requestBlocksFrom _ _ _ _ hT1,
        fun z hz => wf_requestBlocksFrom _ _ _ _ z (hW1 z hz), hQ⟩
    | rejected =>
      exact ⟨nodup_penalize _ _ _ hN1, blocks_penalize _ _ _ hB1,
        txs_penalize _ _ _ hT1, fun z hz => wf_penalize _ _ _ z (hW1 z hz), hQ⟩
    | accepted isNewTip tipHash tipHeight =>
      cases isNewTip with
      | true =>
        exact ⟨hN1, hB1, hT1, fun z hz => hW1 z hz, rfl, fun hne => absurd rfl hne⟩
      | false =>
        exact ⟨hN1, hB1, hT1, fun z hz => hW1 z hz, hQ⟩

theorem inv_processInvReceived (cfg : SyncConfig) (s : ManagerState)
    (pid : Nat) (invB invT : List Nat) (hI : Inv s) :
    Inv (processInvReceived cfg s pid invB invT).1 := by
  obtain ⟨hN, hB, hT, hW, hQ⟩ := hI
  simp only [processInvReceived]
  by_cases hk : (!(knownPeer s.peers pid)) = true
  · rw [if_pos hk]
    exact ⟨hN, hB, hT, hW, hQ⟩
  · rw [if_neg hk]
    refine ⟨nodup_requestTxsFrom _ _ _ _ (nodup_requestBlocksFrom _ _ _ _ hN),
      blocks_requestTxsFrom _ _ _ _ (blocks_requestBlocksFrom _ _ _ _ hB),
      txs_requestTxsFrom _ _ _ _ (txs_requestBlocksFrom _ _ _ _ hT),
      fun z hz => wf_requestTxsFrom _ _ _ _ z
        (wf_requestBlocksFrom _ _ _ _ z (hW z hz)), hQ⟩

end UlordSync

namespace UlordSync

theorem inv_processPeerDisconnected (cfg : SyncConfig) (s : ManagerState)
    (pid : Nat) (hI : Inv s) : Inv (processPeerDisconnected cfg s pid).1 := by
  obtain ⟨hN, hB, hT, hW, hQ⟩ := hI
  simp only [processPeerDisconnected]
  by_cases hk : (!(knownPeer s.peers pid)) = true
  · rw [if_pos hk]
    exact ⟨hN, hB, hT, hW, hQ⟩
  · rw [if_neg hk]
    have hNf : NodupIDs (s.peers.filter (fun p => !(p.peerID == pid))) :=
      nodupIDs_filter _ _ hN
    have hBf : BlocksDisjoint (s.peers.filter (fun p => !(p.peerID == pid))) := by
      intro x
      exact le_trans ((List.filter_sublist s.peers).countP_le _) (hB x)
    have hTf : TxsDisjoint (s.peers.filter (fun p => !(p.peerID == pid))) := by
      intro x
      exact le_trans ((List.filter_sublist s.peers).countP_le _) (hT x)
    by_cases hsy : (s.sync.currentSyncPeer == some pid) = true
    · rw [if_pos hsy]
      cases hbc : bestCandidate (s.peers.filter (fun p => !(p.peerID == pid))) with
      | some q =>
        refine ⟨hNf, hBf, hTf, ?_, hQ⟩
        intro z hz
        simp only [Option.some.injEq] at hz
        subst hz
        rcases bestCandidate_mem _ q hbc with ⟨hm, hc⟩
        exact ⟨q, hm, rfl, hc⟩
      | none =>
        refine ⟨hNf, hBf, hTf, ?_, hQ⟩
        intro z hz
        simp at hz
    · rw [if_neg hsy]
      refine ⟨hNf, hBf, hTf, ?_, hQ⟩
      intro z hz
      have hz' : s.sync.currentSyncPeer = some z := hz
      have hzne : z ≠ pid := by
        intro he
        subst he
        rw [hz'] at hsy
        simp at hsy
      exact wfIn_filter_ne pid z hzne s.peers (hW z hz')

theorem inv_processHeadersReceived (cfg : SyncConfig) (s : ManagerState)
    (pid : Nat) (hs : List (Nat × Nat)) (hI : Inv s) :
    Inv (processHeadersReceived cfg s pid hs).1 := by
  obtain ⟨hN, hB, hT, hW, hQ⟩ := hI
  simp only [processHeadersReceived]
  by_cases hk : (!(knownPeer s.peers pid)) = true
  · rw [if_pos hk]
    exact ⟨hN, hB, hT, hW, hQ⟩
  · rw [if_neg hk]
    by_cases hg : (s.sync.headersFirstMode && !(s.sync.currentSyncPeer == some pid)) = true
    · rw [if_pos hg]
      exact ⟨hN, hB, hT, hW, hQ⟩
    · rw [if_neg hg]
      by_cases hemp : hs.isEmpty = true
      · rw [if_pos hemp]
        exact ⟨hN, hB, hT, fun z hz => hW z hz, hQ⟩
      · rw [if_neg hemp]
        by_cases hcf : (!(contFrom s.sync.bestKnownHeight hs)) = true
        · rw [if_pos hcf]
          exact ⟨nodup_penalize _ _ _ hN, blocks_penalize _ _ _ hB,
            txs_penalize _ _ _ hT, fun z hz => wf_penalize _ _ _ z (hW z hz), hQ⟩
        · rw [if_neg hcf]
          by_cases hdup : (hs.any (fun hp => inFlightBlock s.peers hp.1 ||
              s.headerQueue.any (fun qp => qp.1 == hp.1))) = true
          · rw [if_pos hdup]
            exact ⟨hN, hB, hT, hW, hQ⟩
          · rw [if_neg hdup]
            have hcf' : contFrom s.sync.bestKnownHeight hs = true := by
              cases hv : contFrom s.sync.bestKnownHeight hs
              · rw [hv] at hcf
                exact absurd rfl hcf
              · rfl
            have hsne : hs ≠ [] := by
              intro he
              rw [he] at hemp
              exact hemp rfl
            have hchain : chainHeights (s.headerQueue ++ hs) = true :=
              chainHeights_append_cont s.headerQueue s.sync.bestKnownHeight hs
                hQ.1 hQ.2 hcf'
            refine ⟨nodup_requestBlocksFrom _ _ _ _ hN,
              blocks_requestBlocksFrom _ _ _ _ hB,
              txs_requestBlocksFrom _ _ _ _ hT,
              fun z hz => wf_requestBlocksFrom _ _ _ _ z (hW z hz), ?_, ?_⟩
            · exact chainHeights_drop _ _ hchain
            · intro hne
              rw [lastHeight_drop _ _ hne, lastHeight_append _ _ hsne]
              exact lastHeight_irrel 0 s.sync.bestKnownHeight hs hsne

end UlordSync

namespace UlordSync

theorem stallClear_peerID (cfg : SyncConfig) (tnow : Nat) (p : PeerState) :
    (stallClear cfg tnow p).peerID = p.peerID := by
  unfold stallClear
  split <;> rfl

theorem stallClear_candidate (cfg : SyncConfig) (tnow : Nat) (p : PeerState) :
    (stallClear cfg tnow p).isSyncCandidate = p.isSyncCandidate := by
  unfold stallClear
  split <;> rfl

theorem stallClear_holdsBlock (cfg : SyncConfig) (tnow : Nat) (x : Nat)
    (p : PeerState) (hq : holdsBlock x (stallClear cfg tnow p) = true) :
    holdsBlock x p = true := by
  unfold stallClear at hq
  revert hq
  split
  · intro hq
    simp [holdsBlock] at hq
  · intro hq
    exact hq

theorem stallClear_holdsTx (cfg : SyncConfig) (tnow : Nat) (x : Nat)
    (p : PeerState) (hq : holdsTx x (stallClear cfg tnow p) = true) :
    holdsTx x p = true := by
  unfold stallClear at hq
  revert hq
  split
  · intro hq
    simp [holdsTx] at hq
  · intro hq
    exact hq

theorem tickSync_bestKnownHeight (cfg : SyncConfig) (s : ManagerState)
    (tnow : Nat) (ps1 : List PeerState) :
    (tickSync cfg s tnow ps1).bestKnownHeight = s.sync.bestKnownHeight := by
  unfold tickSync
  repeat' split
  all_goals rfl

theorem wfIn_tickSync (cfg : SyncConfig) (s : ManagerState) (tnow : Nat)
    (hW : SyncWF s) (z : Nat)
    (hz : (tickSync cfg s tnow (s.peers.map (stallClear cfg tnow))).currentSyncPeer
      = some z) :
    wfIn (s.peers.map (stallClear cfg tnow)) z := by
  unfold tickSync at hz
  split at hz
  · rename_i pid0 hsp
    split at hz
    · rename_i p0 hfind
      split at hz
      · split at hz
        · rename_i q hbc
          injection hz with he
          subst he
          rcases bestCandidate_mem _ q hbc with ⟨hm, hc⟩
          exact ⟨q, List.mem_of_mem_filter hm, rfl, hc⟩
        · cases hz
      · rw [hsp] at hz
        injection hz with he
        subst he
        exact wfIn_map _ _ (stallClear_peerID cfg tnow) (stallClear_candidate cfg tnow)
          s.peers (hW _ hsp)
    · rename_i hfind
      rw [hsp] at hz
      injection hz with he
      subst he
      exact wfIn_map _ _ (stallClear_peerID cfg tnow) (stallClear_candidate cfg tnow)
        s.peers (hW _ hsp)
  · rename_i hsp
    rw [hsp] at hz
    cases hz

theorem inv_processTick (cfg : SyncConfig) (s : ManagerState) (tnow : Nat)
    (hI : Inv s) : Inv (processTick cfg s tnow).1 := by
  obtain ⟨hN, hB, hT, hW, hQ⟩ := hI
  simp only [processTick]
  have hN1 : NodupIDs (s.peers.map (stallClear cfg tnow)) :=
    nodupIDs_map _ _ (stallClear_peerID cfg tnow) hN
  have hB1 : BlocksDisjoint (s.peers.map (stallClear cfg tnow)) := fun x =>
    le_trans (countP_map_le _ _ (stallClear_holdsBlock cfg tnow x) s.peers) (hB x)
  have hT1 : TxsDisjoint (s.peers.map (stallClear cfg tnow)) := fun x =>
    le_trans (countP_map_le _ _ (stallClear_holdsTx cfg tnow x) s.peers) (hT x)
  have hbest := tickSync_bestKnownHeight cfg s tnow (s.peers.map (stallClear cfg tnow))
  cases hel : s.peers.filter (eligibleB cfg tnow) with
  | nil =>
    refine ⟨hN1, hB1, hT1, fun z hz => wfIn_tickSync cfg s tnow hW z hz, hQ.1, ?_⟩
    intro hne
    exact (hQ.2 hne).trans hbest.symm
  | cons q rest =>
    refine ⟨nodup_requestTxsFrom _ _ _ _ (nodup_requestBlocksFrom _ _ _ _ hN1),
      blocks_requestTxsFrom _ _ _ _ (blocks_requestBlocksFrom _ _ _ _ hB1),
      txs_requestTxsFrom _ _ _ _ (txs_requestBlocksFrom _ _ _ _ hT1),
      fun z hz => wf_requestTxsFrom _ _ _ _ z (wf_requestBlocksFrom _ _ _ _ z
        (wfIn_tickSync cfg s tnow hW z hz)), hQ.1, ?_⟩
    intro hne
    exact (hQ.2 hne).trans hbest.symm

end UlordSync

namespace UlordSync

theorem inv_initState : Inv initState := by
  refine ⟨?_, ?_, ?_, ?_, ?_, ?_⟩
  · simp [NodupIDs, initState]
  · intro h
    simp [blockCount, initState]
  · intro h
    simp [txCount, initState]
  · intro z hz
    simp [initState] at hz
  · rfl
  · intro hne
    exact absurd rfl hne

theorem inv_process (cfg : SyncConfig) (s : ManagerState) (ev : Event)
    (hI : Inv s) : Inv (process cfg s ev).1 := by
  cases ev with
  | peerConnected pid height cand => exact inv_processPeerConnected cfg s pid height cand hI
  | peerDisconnected pid => exact inv_processPeerDisconnected cfg s pid hI
  | headersReceived pid hs => exact inv_processHeadersReceived cfg s pid hs hI
  | blockReceived pid h parent disp pv =>
    exact inv_processBlockReceived cfg s pid h parent disp pv hI
  | txReceived pid tx acc => exact inv_processTxReceived cfg s pid tx acc hI
  | invReceived pid invB invT => exact inv_processInvReceived cfg s pid invB invT hI
  | tick tnow => exact inv_processTick cfg s tnow hI

theorem inv_reachable (cfg : SyncConfig) (s : ManagerState)
    (hr : Reachable cfg s) : Inv s := by
  induction hr with
  | init => exact inv_initState
  | step s' ev hr' ih => exact inv_process cfg s' ev ih

end UlordSync

namespace UlordSync

theorem countP_idkey_le_one (y : Nat) (qy : PeerState → Bool)
    (hq : ∀ p, qy p = true → p.peerID = y) :
    ∀ ps : List PeerState, NodupIDs ps → ps.countP qy ≤ 1 := by
  intro ps
  induction ps with
  | nil => intro _; simp
  | cons p rest ih =>
    intro hN
    have hN' : NodupIDs rest := by
      simpa [NodupIDs] using (List.nodup_cons.mp hN).2
    have hnotin : p.peerID ∉ rest.map PeerState.peerID := (List.nodup_cons.mp hN).1
    simp only [List.countP_cons]
    by_cases hp : qy p = true
    · have h0 : rest.countP qy = 0 := by
        refine List.countP_eq_zero.mpr ?_
        intro a ha hqa
        exact hnotin ((hq p hp) ▸ (hq a hqa) ▸ List.mem_map_of_mem PeerState.peerID ha)
      rw [h0, if_pos hp]
    · rw [if_neg hp]
      have := ih hN'
      omega

/-- Claim C1: at every reachable state of the Sync Manager, any given block or
transaction hash appears in the requestedBlocks/requestedTxs set of at most
one peer's PeerState. In this model a stall reassignment is atomic within one
Tick step, so the disjointness holds at every state without exception, which
implies the claimed property (the Stalled-holder exception is never needed
between events). -/
theorem C1_no_duplicate_fanout (cfg : SyncConfig) (s : ManagerState)
    (hr : Reachable cfg s) (h : Nat) :
    blockCount s.peers h ≤ 1 ∧ txCount s.peers h ≤ 1 := by
  have hI := inv_reachable cfg s hr
  exact ⟨hI.2.1 h, hI.2.2.1 h⟩

/-- Witness for C1 at a concrete reachable state: a peer connects and
announces inventory that gets requested. -/
theorem C1_no_duplicate_fanout_witness :
    blockCount ((process defaultConfig
      ((process defaultConfig initState (Event.peerConnected 1 10 true)).1)
      (Event.invReceived 1 [7] [8])).1).peers 7 ≤ 1 ∧
    txCount ((process defaultConfig
      ((process defaultConfig initState (Event.peerConnected 1 10 true)).1)
      (Event.invReceived 1 [7] [8])).1).peers 7 ≤ 1 :=
  C1_no_duplicate_fanout defaultConfig _
    (Reachable.step _ _ (Reachable.step _ _ Reachable.init)) 7

/-- Claim C3: the height of bestKnownHeader never decreases across an event,
except for an explicit reorg update: a BlockReceived event whose Chain
Validator verdict is accepted with isNewTip. -/
theorem C3_monotonic_best_header (cfg : SyncConfig) (s : ManagerState)
    (ev : Event) :
    s.sync.bestKnownHeight ≤ ((process cfg s ev).1).sync.bestKnownHeight ∨
      isNewTipEvent ev = true := by
  cases ev with
  | peerConnected pid height cand =>
    left
    simp only [process, processPeerConnected]
    repeat' split
    all_goals exact le_refl _
  | peerDisconnected pid =>
    left
    simp only [process, processPeerDisconnected]
    repeat' split
    all_goals exact le_refl _
  | headersReceived pid hs =>
    left
    simp only [process, processHeadersReceived]
    split
    · exact le_refl _
    · split
      · exact le_refl _
      · split
        · exact le_refl _
        · rename_i hk hg hemp
          split
          · exact le_refl _
          · rename_i hcf
            split
            · exact le_refl _
            · have hcf' : contFrom s.sync.bestKnownHeight hs = true := by
                cases hv : contFrom s.sync.bestKnownHeight hs
                · rw [hv] at hcf
                  exact absurd rfl hcf
                · rfl
              have hsne : hs ≠ [] := by
                intro he
                rw [he] at hemp
                exact hemp rfl
              show s.sync.bestKnownHeight ≤ lastHeight s.sync.bestKnownHeight hs
              have hlt := contFrom_lt_lastHeight hs s.sync.bestKnownHeight hcf' hsne
              rw [lastHeight_irrel 0 s.sync.bestKnownHeight hs hsne] at hlt
              exact le_of_lt hlt
  | blockReceived pid h parent disp pv =>
    cases disp with
    | orphaned =>
      left
      simp only [process, processBlockReceived]
      repeat' split
      all_goals exact le_refl _
    | rejected =>
      left
      simp only [process, processBlockReceived]
      repeat' split
      all_goals exact le_refl _
    | accepted isNewTip tipHash tipHeight =>
      cases isNewTip with
      | true => right; rfl
      | false =>
        left
        simp only [process, processBlockReceived]
        repeat' split
        all_goals try exact le_refl _
        all_goals rename_i hfalse
        all_goals exact absurd hfalse (by simp)
  | txReceived pid tx acc =>
    left
    simp only [process, processTxReceived]
    repeat' split
    all_goals exact le_refl _
  | invReceived pid invB invT =>
    left
    simp only [process, processInvReceived]
    repeat' split
    all_goals exact le_refl _
  | tick tnow =>
    left
    simp only [process, processTick]
    split
    · exact le_of_eq (tickSync_bestKnownHeight cfg s tnow _).symm
    · exact le_of_eq (tickSync_bestKnownHeight cfg s tnow _).symm

/-- Claim C7: no operation of the Sync Manager terminates the process: the
fatal output is never emitted by any handler on any state; every signalled
error is reported as an Output value and handled locally. -/
theorem C7_no_fatal_output (cfg : SyncConfig) (s : ManagerState) (ev : Event) :
    Output.fatal ∉ (process cfg s ev).2 := by
  cases ev with
  | peerConnected pid height cand =>
    simp only [process, processPeerConnected]
    repeat' split
    all_goals simp
  | peerDisconnected pid =>
    simp only [process, processPeerDisconnected]
    repeat' split
    all_goals simp
  | headersReceived pid hs =>
    simp only [process, processHeadersReceived]
    repeat' split
    all_goals simp
  | blockReceived pid h parent disp pv =>
    simp only [process, processBlockReceived]
    repeat' split
    all_goals simp
  | txReceived pid tx acc =>
    simp only [process, processTxReceived]
    repeat' split
    all_goals simp
  | invReceived pid invB invT =>
    simp only [process, processInvReceived]
    repeat' split
    all_goals simp
  | tick tnow =>
    simp only [process, processTick]
    repeat' split
    all_goals simp

end UlordSync

namespace UlordSync

/-- Claim C2: at every reachable state at most one PeerState has Active (sync
peer) status; a set currentSyncPeer always names an existing PeerState marked
syncCandidate; and disconnecting the Active peer yields either a new Active
peer that is a remaining candidate maximal by advertised height with
earliest-connection tiebreak, or no sync peer when no candidate remains. -/
theorem C2_single_active_sync_peer (cfg : SyncConfig) (s : ManagerState)
    (hr : Reachable cfg s) :
    activeCount s ≤ 1 ∧
    (∀ pid, s.sync.currentSyncPeer = some pid → wfIn s.peers pid) ∧
    (∀ pid, s.sync.currentSyncPeer = some pid →
      (((process cfg s (Event.peerDisconnected pid)).1).sync.currentSyncPeer = none ∧
        ∀ r ∈ ((process cfg s (Event.peerDisconnected pid)).1).peers,
          r.isSyncCandidate = false) ∨
      (∃ x, ((process cfg s (Event.peerDisconnected pid)).1).sync.currentSyncPeer = some x ∧
        ∃ q ∈ ((process cfg s (Event.peerDisconnected pid)).1).peers,
          q.peerID = x ∧ q.isSyncCandidate = true ∧
          ∀ r ∈ ((process cfg s (Event.peerDisconnected pid)).1).peers,
            r.isSyncCandidate = true →
              r.protocolHeight ≤ q.protocolHeight ∧
                (r.protocolHeight = q.protocolHeight →
                  q.connectedAt ≤ r.connectedAt))) := by
  obtain ⟨hN, hB, hT, hW, hQ⟩ := inv_reachable cfg s hr
  refine ⟨?_, fun pid hz => hW pid hz, ?_⟩
  · cases hsy : s.sync.currentSyncPeer with
    | none =>
      have h0 : s.peers.countP (fun p => (none : Option Nat) == some p.peerID) = 0 :=
        List.countP_eq_zero.mpr (fun a ha => by simp)
      simp only [activeCount, hsy]
      rw [h0]
      omega
    | some y =>
      simp only [activeCount, hsy]
      refine countP_idkey_le_one y _ ?_ s.peers hN
      intro p hp
      have hpy : y = p.peerID := by simpa using hp
      exact hpy.symm
  · intro pid hz
    have hkp : knownPeer s.peers pid = true := by
      rcases hW pid hz with ⟨p, hm, hpe, _⟩
      exact List.any_eq_true.mpr ⟨p, hm, by simp [hpe]⟩
    simp only [process, processPeerDisconnected]
    rw [if_neg (by simp [hkp])]
    rw [if_pos (by simp [hz])]
    cases hbc : bestCandidate (s.peers.filter (fun p => !(p.peerID == pid))) with
    | none =>
      left
      exact ⟨rfl, fun r hr' => bestCandidate_none _ hbc r hr'⟩
    | some q =>
      right
      refine ⟨q.peerID, rfl, q, ?_, rfl, (bestCandidate_mem _ q hbc).2, ?_⟩
      · exact (bestCandidate_mem _ q hbc).1
      · intro r hr' hrc
        exact bestCandidate_argmax _ q hbc r hr' hrc

/-- Witness for C2 at a concrete reachable state with two connected peers. -/
theorem C2_single_active_sync_peer_witness :
    activeCount ((process defaultConfig
      ((process defaultConfig initState (Event.peerConnected 1 100 true)).1)
      (Event.peerConnected 2 150 true)).1) ≤ 1 :=
  (C2_single_active_sync_peer defaultConfig _
    (Reachable.step _ _ (Reachable.step _ _ Reachable.init))).1

end UlordSync

namespace UlordSync

/-- Claim C6: every block batch the Request Scheduler produces follows the
header chain in strictly ascending height order with no gaps (consecutive
heights), and transaction batches are served from the front of the first-seen
queue (a prefix of it). -/
theorem C6_scheduler_batch_order (cfg : SyncConfig) (s : ManagerState)
    (hr : Reachable cfg s) (pid : Nat) :
    chainHeights (scheduleBlocksFor cfg s pid) = true ∧
    chainHeights (scheduleBlockBatch cfg s) = true ∧
    List.IsPrefix (scheduleTxBatch cfg s) s.txQueue := by
  have hQ := (inv_reachable cfg s hr).2.2.2.2
  refine ⟨?_, ?_, ?_⟩
  · exact chainHeights_take s.headerQueue _ hQ.1
  · unfold scheduleBlockBatch
    cases hsp : s.sync.currentSyncPeer with
    | none => rfl
    | some y => exact chainHeights_take s.headerQueue _ hQ.1
  · exact s.txQueue.take_prefix cfg.txWindow

/-- Witness for C6 at a concrete reachable state with a connected sync peer. -/
theorem C6_scheduler_batch_order_witness :
    chainHeights (scheduleBlocksFor defaultConfig
      ((process defaultConfig initState (Event.peerConnected 1 5 true)).1) 1) = true ∧
    chainHeights (scheduleBlockBatch defaultConfig
      ((process defaultConfig initState (Event.peerConnected 1 5 true)).1)) = true ∧
    List.IsPrefix (scheduleTxBatch defaultConfig
      ((process defaultConfig initState (Event.peerConnected 1 5 true)).1))
      ((process defaultConfig initState (Event.peerConnected 1 5 true)).1).txQueue :=
  C6_scheduler_batch_order defaultConfig _ (Reachable.step _ _ Reachable.init) 1

theorem chainPool_length (a : Nat) : ∀ k : Nat, (chainPool a k).length = k := by
  intro k
  induction k generalizing a with
  | zero => rfl
  | succ n ih =>
    show ((⟨a + 1, a, 0⟩ : OrphanBlock) :: chainPool (a + 1) n).length = n + 1
    simp [ih]

theorem chainPool_no_parent (x : Nat) :
    ∀ (k : Nat) (b : Nat), x < b →
      (chainPool b k).filter (fun o => o.parentHash == x) = [] := by
  intro k
  induction k with
  | zero => intro b _; rfl
  | succ n ih =>
    intro b hb
    show ((⟨b + 1, b, 0⟩ : OrphanBlock) :: chainPool (b + 1) n).filter
      (fun o => o.parentHash == x) = []
    rw [List.filter_cons]
    have hne : ((⟨b + 1, b, 0⟩ : OrphanBlock).parentHash == x) = false := by
      show (b == x) = false
      rw [beq_eq_false_iff_ne]
      omega
    rw [hne]
    simp only [Bool.false_eq_true, if_false]
    exact ih (b + 1) (by omega)

theorem chainPool_keep (x : Nat) :
    ∀ (k : Nat) (b : Nat), x < b →
      (chainPool b k).filter (fun o => !(o.parentHash == x)) = chainPool b k := by
  intro k
  induction k with
  | zero => intro b _; rfl
  | succ n ih =>
    intro b hb
    show ((⟨b + 1, b, 0⟩ : OrphanBlock) :: chainPool (b + 1) n).filter
      (fun o => !(o.parentHash == x)) = _
    rw [List.filter_cons]
    have hne : (!(((⟨b + 1, b, 0⟩ : OrphanBlock).parentHash == x))) = true := by
      show (!(b == x)) = true
      rw [Bool.not_eq_true', beq_eq_false_iff_ne]
      omega
    rw [hne]
    simp only [if_true]
    rw [ih (b + 1) (by omega)]
    rfl

theorem promoteLoop_chainPool :
    ∀ (k : Nat) (a : Nat),
      promoteLoop (fun _ => true) k (chainPool a k) [a] = [] := by
  intro k
  induction k with
  | zero => intro a; rfl
  | succ n ih =>
    intro a
    have hstep : chainPool a (n + 1) =
        (⟨a + 1, a, 0⟩ : OrphanBlock) :: chainPool (a + 1) n := rfl
    rw [hstep]
    have h1 : ((⟨a + 1, a, 0⟩ : OrphanBlock).parentHash == a) = true := by
      show (a == a) = true
      simp
    simp only [promoteLoop, List.filter_cons, h1, Bool.not_true, Bool.false_eq_true,
      if_false, if_true,
      chainPool_no_parent a n (a + 1) (by omega), chainPool_keep a n (a + 1) (by omega),
      List.filter_nil, List.map_cons, List.map_nil, List.nil_append]
    exact ih (a + 1)

/-- Claim C4: when the missing ancestor of a chain of K pooled orphans arrives
and is accepted by the Chain Validator, the single BlockReceived processing
pass promotes all K orphans iteratively (the fuel-bounded promoteLoop) and
removes them, leaving the Orphan Pool empty. -/
theorem C4_orphan_promotion (cfg : SyncConfig) (s : ManagerState) (pid : Nat)
    (a parent tipHash : Nat) (tipHeight : Nat) (isNewTip : Bool) (K : Nat)
    (hpool : s.orphans = chainPool a K)
    (hkp : knownPeer s.peers pid = true) :
    ((process cfg s (Event.blockReceived pid a parent
      (BlockDisposition.accepted isNewTip tipHash tipHeight)
      (fun _ => true))).1).orphans = [] := by
  simp only [process, processBlockReceived]
  rw [if_neg (by simp [hkp])]
  cases isNewTip with
  | true =>
    show promoteLoop (fun _ => true) s.orphans.length s.orphans [a] = []
    rw [hpool, chainPool_length a K]
    exact promoteLoop_chainPool K a
  | false =>
    show promoteLoop (fun _ => true) s.orphans.length s.orphans [a] = []
    rw [hpool, chainPool_length a K]
    exact promoteLoop_chainPool K a

/-- Witness for C4: a pool holding a chain of three orphans is fully promoted
when their missing ancestor is accepted. -/
theorem C4_orphan_promotion_witness :
    c4State.orphans = chainPool 100 3 ∧
    knownPeer c4State.peers 1 = true ∧
    ((process defaultConfig c4State
      (Event.blockReceived 1 100 99
        (BlockDisposition.accepted false 0 0) (fun _ => true))).1).orphans = [] :=
  ⟨rfl, by decide,
    C4_orphan_promotion defaultConfig c4State 1 100 99 0 0 false 3 rfl (by decide)⟩

end UlordSync

namespace UlordSync

theorem mem_id_unique (ps : List PeerState) (hN : NodupIDs ps) (a b : PeerState)
    (ha : a ∈ ps) (hb : b ∈ ps) (h : a.peerID = b.peerID) : a = b := by
  refine holders_unique (fun r => r.peerID == b.peerID) ps ?_ a ha b hb (by simp [h]) (by simp)
  refine countP_idkey_le_one b.peerID _ ?_ ps hN
  intro r hr
  simpa using hr

theorem mem_foldr_blocks (x : Nat) :
    ∀ (l : List PeerState) (r : PeerState), r ∈ l → x ∈ r.requestedBlocks →
      x ∈ l.foldr (fun p acc => p.requestedBlocks ++ acc) [] := by
  intro l
  induction l with
  | nil => intro r hr; simp at hr
  | cons a rest ih =>
    intro r hr hx
    rcases List.mem_cons.mp hr with hEq | hRest
    · subst hEq
      exact List.mem_append.mpr (Or.inl hx)
    · exact List.mem_append.mpr (Or.inr (ih r hRest hx))

theorem stallClear_stalled (cfg : SyncConfig) (tnow : Nat) (p : PeerState)
    (h : stalledB cfg tnow p = true) :
    stallClear cfg tnow p = { p with requestedBlocks := [], requestedTxs := [], stallScore := p.stallScore + cfg.stallPenalty, lastActivity := tnow } := by
  unfold stallClear
  rw [if_pos h]

theorem stallClear_skip (cfg : SyncConfig) (tnow : Nat) (p : PeerState)
    (h : stalledB cfg tnow p = false) : stallClear cfg tnow p = p := by
  unfold stallClear
  rw [if_neg (by simp [h])]

/-- Claim C5: at a Tick, a request outstanding at a stall-timed-out peer is
released (the peer no longer holds it and its stallScore increases by exactly
the configured penalty) and reassigned to a different eligible peer in the
same scheduling pass, while remaining assigned to at most one peer. -/
theorem C5_stall_reassignment (cfg : SyncConfig) (s : ManagerState) (tnow : Nat)
    (p : PeerState) (h : Nat)
    (hN : NodupIDs s.peers)
    (hpd : pairwiseDisjBlocksB s.peers = true)
    (hp : p ∈ s.peers)
    (hh : h ∈ p.requestedBlocks)
    (hst : stalledB cfg tnow p = true)
    (hel : ∃ q ∈ s.peers, eligibleB cfg tnow q = true) :
    (∃ p' ∈ ((processTick cfg s tnow).1).peers, p'.peerID = p.peerID ∧
      h ∉ p'.requestedBlocks ∧ p'.stallScore = p.stallScore + cfg.stallPenalty) ∧
    (∃ q0 ∈ s.peers, eligibleB cfg tnow q0 = true ∧ q0.peerID ≠ p.peerID ∧
      ∃ q' ∈ ((processTick cfg s tnow).1).peers, q'.peerID = q0.peerID ∧
        h ∈ q'.requestedBlocks) ∧
    blockCount ((processTick cfg s tnow).1).peers h ≤ 1 := by
  have hBD : BlocksDisjoint s.peers := pairwiseDisjBlocks_disjoint s.peers hpd
  have hph : holdsBlock h p = true := by
    simp only [holdsBlock]
    exact List.elem_iff.mpr hh
  have hfne : s.peers.filter (eligibleB cfg tnow) ≠ [] := by
    rcases hel with ⟨q0, hq0, he0⟩
    intro hf
    have hmem : q0 ∈ s.peers.filter (eligibleB cfg tnow) :=
      List.mem_filter.mpr ⟨hq0, he0⟩
    rw [hf] at hmem
    simp at hmem
  simp only [processTick]
  cases hfl : s.peers.filter (eligibleB cfg tnow) with
  | nil => exact absurd hfl hfne
  | cons q rest =>
    have hqf : q ∈ s.peers.filter (eligibleB cfg tnow) := by
      rw [hfl]
      exact List.mem_cons_self _ _
    have hqmem : q ∈ s.peers := List.mem_of_mem_filter hqf
    have hqel : eligibleB cfg tnow q = true := by
      have := List.of_mem_filter hqf
      simpa using this
    have hqns : stalledB cfg tnow q = false := by
      simp only [eligibleB, Bool.and_eq_true, Bool.not_eq_true'] at hqel
      exact hqel.2
    have hqne : q.peerID ≠ p.peerID := by
      intro he
      have hqp : q = p := mem_id_unique s.peers hN q p hqmem hp he
      rw [hqp, hst] at hqns
      cases hqns
    have hq1 : stallClear cfg tnow q = q := stallClear_skip cfg tnow q hqns
    have hN1 : NodupIDs (s.peers.map (stallClear cfg tnow)) :=
      nodupIDs_map _ _ (stallClear_peerID cfg tnow) hN
    have hnf : ∀ r' ∈ s.peers.map (stallClear cfg tnow), holdsBlock h r' = false := by
      intro r' hr'
      rcases List.mem_map.mp hr' with ⟨r, hrmem, hre⟩
      by_cases hrs : stalledB cfg tnow r = true
      · rw [← hre, stallClear_stalled cfg tnow r hrs]
        simp [holdsBlock]
      · have hrs' : stalledB cfg tnow r = false := by
          cases hv : stalledB cfg tnow r
          · rfl
          · exact absurd hv hrs
        rw [← hre, stallClear_skip cfg tnow r hrs']
        cases hv : holdsBlock h r
        · rfl
        · exfalso
          have hrp : r = p := holders_unique (holdsBlock h) s.peers (hBD h) r hrmem p hp hv hph
          rw [hrp, hst] at hrs'
          cases hrs'
    have hcount0 : (s.peers.map (stallClear cfg tnow)).countP (holdsBlock h) = 0 :=
      List.countP_eq_zero.mpr (fun r' hr' hq' => by rw [hnf r' hr'] at hq'; cases hq')
    have hpend : h ∈ s.pendingBlocks ++ releasedBlocks cfg s tnow := by
      refine List.mem_append.mpr (Or.inr ?_)
      unfold releasedBlocks
      exact mem_foldr_blocks h _ p (List.mem_filter.mpr ⟨hp, hst⟩) hh
    have hflight : inFlightBlock (s.peers.map (stallClear cfg tnow)) h = false :=
      (inFlightBlock_false_iff _ _).mpr hcount0
    have hfresh : h ∈ (s.pendingBlocks ++ releasedBlocks cfg s tnow).filter
        (fun x => !(inFlightBlock (s.peers.map (stallClear cfg tnow)) x)) := by
      refine List.mem_filter.mpr ⟨hpend, ?_⟩
      simp [hflight]
    have hq1mem : q ∈ s.peers.map (stallClear cfg tnow) := by
      rw [← hq1]
      exact List.mem_map_of_mem _ hqmem
    refine ⟨?_, ?_, ?_⟩
    · -- the stalled peer: cleared and penalized
      refine ⟨stallClear cfg tnow p, ?_, stallClear_peerID cfg tnow p, ?_, ?_⟩
      · have hm1 : stallClear cfg tnow p ∈ s.peers.map (stallClear cfg tnow) :=
          List.mem_map_of_mem _ hp
        have hne1 : (stallClear cfg tnow p).peerID ≠ q.peerID := by
          rw [stallClear_peerID]
          exact fun he => hqne he.symm
        exact mem_updateFirst_of_ne _ q.peerID _ hne1 _
          (mem_updateFirst_of_ne _ q.peerID _ hne1 _ hm1)
      · rw [stallClear_stalled cfg tnow p hst]
        simp
      · rw [stallClear_stalled cfg tnow p hst]
    · -- reassignment to the first eligible peer
      refine ⟨q, hqmem, hqel, hqne, ?_⟩
      have hm2 := mem_updateFirst_self
        (fun pp => { pp with
          requestedBlocks := pp.requestedBlocks ++
            ((s.pendingBlocks ++ releasedBlocks cfg s tnow).filter
              (fun x => !(inFlightBlock (s.peers.map (stallClear cfg tnow)) x))),
          lastActivity := tnow }) q (s.peers.map (stallClear cfg tnow)) hN1 hq1mem
      have hN2 : NodupIDs (updateFirst (s.peers.map (stallClear cfg tnow)) q.peerID
          (fun pp => { pp with
            requestedBlocks := pp.requestedBlocks ++
              ((s.pendingBlocks ++ releasedBlocks cfg s tnow).filter
                (fun x => !(inFlightBlock (s.peers.map (stallClear cfg tnow)) x))),
            lastActivity := tnow })) :=
        nodupIDs_updateFirst _ _ _ (fun pp => rfl) hN1
      have hm3 := mem_updateFirst_self
        (fun pp => { pp with
          requestedTxs := pp.requestedTxs ++
            ((s.pendingTxs ++ releasedTxs cfg s tnow).filter
              (fun x => !(inFlightTx (updateFirst (s.peers.map (stallClear cfg tnow))
                q.peerID (fun pp2 => { pp2 with
                  requestedBlocks := pp2.requestedBlocks ++
                    ((s.pendingBlocks ++ releasedBlocks cfg s tnow).filter
                      (fun x2 => !(inFlightBlock (s.peers.map (stallClear cfg tnow)) x2))),
                  lastActivity := tnow })) x))),
          lastActivity := tnow }) _ _ hN2 hm2
      refine ⟨_, hm3, rfl, ?_⟩
      show h ∈ q.requestedBlocks ++ _
      exact List.mem_append.mpr (Or.inr hfresh)
    · -- the hash stays at a single peer
      have h2 := countP_updateFirst_le_one (holdsBlock h)
        (fun pp => { pp with
          requestedBlocks := pp.requestedBlocks ++
            ((s.pendingBlocks ++ releasedBlocks cfg s tnow).filter
              (fun x => !(inFlightBlock (s.peers.map (stallClear cfg tnow)) x))),
          lastActivity := tnow }) q.peerID (s.peers.map (stallClear cfg tnow)) hcount0
      have h3 := countP_updateFirst_eq (holdsBlock h)
        (fun pp => { pp with
          requestedTxs := pp.requestedTxs ++
            ((s.pendingTxs ++ releasedTxs cfg s tnow).filter
              (fun x => !(inFlightTx (updateFirst (s.peers.map (stallClear cfg tnow))
                q.peerID (fun pp2 => { pp2 with
                  requestedBlocks := pp2.requestedBlocks ++
                    ((s.pendingBlocks ++ releasedBlocks cfg s tnow).filter
                      (fun x2 => !(inFlightBlock (s.peers.map (stallClear cfg tnow)) x2))),
                  lastActivity := tnow })) x))),
          lastActivity := tnow }) q.peerID (fun pp => rfl)
        (updateFirst (s.peers.map (stallClear cfg tnow)) q.peerID
          (fun pp => { pp with
            requestedBlocks := pp.requestedBlocks ++
              ((s.pendingBlocks ++ releasedBlocks cfg s tnow).filter
                (fun x => !(inFlightBlock (s.peers.map (stallClear cfg tnow)) x))),
            lastActivity := tnow }))
      exact le_trans (le_of_eq h3) h2

end UlordSync

namespace UlordSync

/-- Witness for C5: peer 2's block request 42, unanswered past the stall
timeout at time 100, is released, penalized and reassigned to eligible
peer 1. -/
theorem C5_stall_reassignment_witness :
    (∃ p' ∈ ((processTick defaultConfig c5State 100).1).peers,
        p'.peerID = (witnessPeer 2 90 true [42] [] 0).peerID ∧
        42 ∉ p'.requestedBlocks ∧
        p'.stallScore = (witnessPeer 2 90 true [42] [] 0).stallScore +
          defaultConfig.stallPenalty) ∧
    (∃ q0 ∈ c5State.peers, eligibleB defaultConfig 100 q0 = true ∧
        q0.peerID ≠ (witnessPeer 2 90 true [42] [] 0).peerID ∧
        ∃ q' ∈ ((processTick defaultConfig c5State 100).1).peers,
          q'.peerID = q0.peerID ∧ 42 ∈ q'.requestedBlocks) ∧
    blockCount ((processTick defaultConfig c5State 100).1).peers 42 ≤ 1 :=
  C5_stall_reassignment defaultConfig c5State 100 (witnessPeer 2 90 true [42] [] 0) 42
    (by unfold NodupIDs; decide) (by decide) (by decide) (by decide) (by decide) (by decide)

end UlordSync

namespace netsync

/-- Claim C8: the injected collaborator surface has exactly the stated shape:
a PeerNotifier is determined by exactly its four operations, and a Config by
exactly its seven construction-time components (peer notifier, chain
validator, transaction pool, network parameters, disableCheckpoints flag,
maxPeers, fee estimator); the embedded netsync declarations contain no
package-level mutable state. -/
theorem C8_collaborator_surface (TxDesc ChainHash Peer InvVect InvData Tx Eff
    BlockChain TxPool ChainParams FeeEstimator : Type) :
    (∀ pn : PeerNotifier TxDesc ChainHash Peer InvVect InvData Tx Eff,
      pn = PeerNotifier.mk pn.AnnounceNewTransactions pn.UpdatePeerHeights
        pn.RelayInventory pn.TransactionConfirmed) ∧
    (∀ c : Config TxDesc ChainHash Peer InvVect InvData Tx Eff BlockChain
        TxPool ChainParams FeeEstimator,
      c = Config.mk c.peerNotifier c.Chain c.TxMemPool c.ChainParams
        c.DisableCheckpoints c.MaxPeers c.FeeEstimator) :=
  ⟨fun pn => rfl, fun c => rfl⟩

end netsync

namespace ulordjson

/-- Claim C10: for each of the twelve defined ErrorCode values the stringer
returns exactly the identifier name, and any value outside the defined range
yields the formatted unknown-code string with the value's decimal
representation. -/
theorem C10_errorcode_stringer :
    (ErrorCodeString ErrDuplicateMethod = "ErrDuplicateMethod" ∧
     ErrorCodeString ErrInvalidUsageFlags = "ErrInvalidUsageFlags" ∧
     ErrorCodeString ErrInvalidType = "ErrInvalidType" ∧
     ErrorCodeString ErrEmbeddedType = "ErrEmbeddedType" ∧
     ErrorCodeString ErrUnexportedField = "ErrUnexportedField" ∧
     ErrorCodeString ErrUnsupportedFieldType = "ErrUnsupportedFieldType" ∧
     ErrorCodeString ErrNonOptionalField = "ErrNonOptionalField" ∧
     ErrorCodeString ErrNonOptionalDefault = "ErrNonOptionalDefault" ∧
     ErrorCodeString ErrMismatchedDefault = "ErrMismatchedDefault" ∧
     ErrorCodeString ErrUnregisteredMethod = "ErrUnregisteredMethod" ∧
     ErrorCodeString ErrNumParams = "ErrNumParams" ∧
     ErrorCodeString ErrMissingDescription = "ErrMissingDescription") ∧
    (∀ e : Int, (e < 0 ∨ numErrorCodes ≤ e) →
      ErrorCodeString e = "Unknown ErrorCode (" ++ toString e ++ ")") := by
  constructor
  · refine ⟨rfl, rfl, rfl, rfl, rfl, rfl, rfl, rfl, rfl, rfl, rfl, rfl⟩
  · intro e he
    have hrange : e < 0 ∨ 12 ≤ e := he
    unfold ErrorCodeString errorCodeStrings
    unfold ErrDuplicateMethod ErrInvalidUsageFlags ErrInvalidType ErrEmbeddedType
    unfold ErrUnexportedField ErrUnsupportedFieldType ErrNonOptionalField
    unfold ErrNonOptionalDefault ErrMismatchedDefault ErrUnregisteredMethod
    unfold ErrNumParams ErrMissingDescription
    rw [if_neg (by omega), if_neg (by omega), if_neg (by omega), if_neg (by omega)]
    rw [if_neg (by omega), if_neg (by omega), if_neg (by omega), if_neg (by omega)]
    rw [if_neg (by omega), if_neg (by omega), if_neg (by omega), if_neg (by omega)]

/-- Witness for C10: the test's unknown code 0xffff stringizes to the
formatted unknown string. -/
theorem C10_errorcode_stringer_witness :
    ((65535 : Int) < 0 ∨ numErrorCodes ≤ 65535) ∧
    ErrorCodeString 65535 = "Unknown ErrorCode (" ++ toString (65535 : Int) ++ ")" :=
  ⟨Or.inr (by decide),
    C10_errorcode_stringer.2 65535 (Or.inr (by decide))⟩

/-- Claim C9: marshalling a well-formed command and unmarshalling the result
round-trips to the same command with the documented defaults filled in for
omitted optional parameters (getbalance minconf 1, importprivkey rescan true,
notifynewtransactions verbose false, exportwatchingwallet download false),
while optionals without defaults stay absent. -/
theorem C9_marshal_roundtrip (id : Int) (c : Cmd) (hwf : cmdWellFormed c = true) :
    UnmarshalCmd (MarshalCmd id c) = Except.ok (fillDefaults c) := by
  cases c with
  | getBalanceCmd a m =>
    cases a with
    | none =>
      cases m with
      | none => rfl
      | some mv => simp [cmdWellFormed] at hwf
    | some av =>
      cases m with
      | none => rfl
      | some mv => rfl
  | importPrivKeyCmd k l r =>
    cases l with
    | none =>
      cases r with
      | none => rfl
      | some rv => simp [cmdWellFormed] at hwf
    | some lv =>
      cases r with
      | none => rfl
      | some rv => rfl
  | notifyNewTransactionsCmd v =>
    cases v with
    | none => rfl
    | some vv => rfl
  | exportWatchingWalletCmd a d =>
    cases a with
    | none =>
      cases d with
      | none => rfl
      | some dv => simp [cmdWellFormed] at hwf
    | some av =>
      cases d with
      | none => rfl
      | some dv => rfl
  | getNewAddressCmd a =>
    cases a with
    | none => rfl
    | some av => rfl
  | walletIsLockedCmd => rfl
  | recoverAddressesCmd a n => rfl

/-- Witness for C9: importprivkey with only the key supplied unmarshals with
label absent and rescan defaulted to true. -/
theorem C9_marshal_roundtrip_witness :
    cmdWellFormed (Cmd.importPrivKeyCmd "abc" none none) = true ∧
    UnmarshalCmd (MarshalCmd 1 (Cmd.importPrivKeyCmd "abc" none none)) =
      Except.ok (Cmd.importPrivKeyCmd "abc" none (some true)) :=
  ⟨rfl, C9_marshal_roundtrip 1 (Cmd.importPrivKeyCmd "abc" none none) rfl⟩

end ulordjson
